import Mathlib

/-!
# A shallow embedding of the langrank ranking core

This file embeds the data model and the core algorithms of the `langrank`
repository (language-popularity ranking via the Schulze method) into Lean and
proves properties of the embedded definitions.

Modelling conventions:
* Rust `f64` values are modelled by `ℚ`.  The two places the code manipulates
  non-finite floats (`f64::INFINITY` as a "missing" default, `is_finite`
  guards after parsing) are modelled by `Option ℚ`, with `none` standing for
  a missing / unparseable / non-finite value; this matches the code because
  every non-finite value is filtered out or defaulted immediately where it
  appears.
* Rust hash maps are modelled by association lists with insert-overwrite
  semantics; the code never depends on hash-iteration order for the values it
  produces (results are either re-sorted or only queried by key).
* Rust `sort_by` (a stable sort driven by an `Ordering`-valued comparator) is
  modelled by a stable insertion sort `sortByCmp` driven by the same
  comparator.
-/

set_option allowUnsafeReducibility true

/- Batteries marks the `Rat` field operations `@[irreducible]` as an
elaboration hint; re-exposing them lets `decide` evaluate concrete rational
arithmetic in the kernel. -/
attribute [local semireducible] Rat.add Rat.mul Rat.inv Rat.sub Rat.div Rat.neg

namespace LangRank

/-- Three-way comparison on `ℚ`, mirroring `f64::partial_cmp` on finite
values (the `ℚ` model has no NaN, so `unwrap_or(Equal)` never fires). -/
def qcmp (a b : ℚ) : Ordering :=
  if a < b then .lt else if a = b then .eq else .gt

/-- Lexicographic strictly-less test on character lists (kernel-evaluable
replacement for `String.ltb`). -/
def sltb : List Char → List Char → Bool
  | [], [] => false
  | [], _ :: _ => true
  | _ :: _, [] => false
  | c :: cs, d :: ds => if c < d then true else if d < c then false else sltb cs ds

theorem sltb_iff (a b : List Char) : sltb a b = true ↔ List.lt a b := by
  induction a generalizing b with
  | nil =>
    cases b with
    | nil =>
      simp only [sltb]
      constructor
      · intro h; cases h
      · intro h; cases h
    | cons d ds =>
      simp only [sltb, true_iff]
      exact List.lt.nil d ds
  | cons c cs ih =>
    cases b with
    | nil =>
      simp only [sltb]
      constructor
      · intro h; cases h
      · intro h; cases h
    | cons d ds =>
      simp only [sltb]
      by_cases h₁ : c < d
      · simp only [if_pos h₁, true_iff]
        exact List.lt.head cs ds h₁
      · rw [if_neg h₁]
        by_cases h₂ : d < c
        · simp only [if_pos h₂, Bool.false_eq_true, false_iff]
          intro h
          cases h with
          | head _ _ h => exact h₁ h
          | tail hcd hdc _ => exact hdc h₂
        · rw [if_neg h₂, ih ds]
          constructor
          · exact fun h => List.lt.tail h₁ h₂ h
          · intro h
            cases h with
            | head _ _ h => exact absurd h h₁
            | tail _ _ h => exact h

/-- Three-way comparison on `String`, mirroring Rust `str::cmp`
(byte-lexicographic order, which agrees with codepoint order on UTF-8). -/
def scmp (a b : String) : Ordering :=
  if sltb a.data b.data then .lt else if a = b then .eq else .gt

/-- Stable insertion of `x` into `l` guided by a comparator: `x` is placed
before the first element strictly greater than it, hence after all elements
comparing equal — the stability discipline of Rust `sort_by`. -/
def insertCmp (cmp : α → α → Ordering) (x : α) : List α → List α
  | [] => [x]
  | y :: ys => if cmp x y = .lt then x :: y :: ys else y :: insertCmp cmp x ys

/-- Stable sort by an `Ordering`-valued comparator, modelling `sort_by`. -/
def sortByCmp (cmp : α → α → Ordering) (l : List α) : List α :=
  l.foldl (fun acc x => insertCmp cmp x acc) []

theorem insertCmp_perm (cmp : α → α → Ordering) (x : α) (l : List α) :
    List.Perm (insertCmp cmp x l) (x :: l) := by
  induction l with
  | nil => simp [insertCmp]
  | cons y ys ih =>
    simp only [insertCmp]
    split
    · exact List.Perm.refl _
    · exact (List.Perm.cons y ih).trans (List.Perm.swap x y ys)

theorem sortByCmp_perm (cmp : α → α → Ordering) (l : List α) :
    List.Perm (sortByCmp cmp l) l := by
  suffices h : ∀ (l : List α) (acc : List α),
      List.Perm (l.foldl (fun acc x => insertCmp cmp x acc) acc) (acc ++ l) by
    simpa using h l []
  intro l
  induction l with
  | nil => intro acc; simp
  | cons x xs ih =>
    intro acc
    have h1 : (x :: xs).foldl (fun acc x => insertCmp cmp x acc) acc
        = xs.foldl (fun acc x => insertCmp cmp x acc) (insertCmp cmp x acc) := rfl
    rw [h1]
    refine (ih _).trans ?_
    refine ((insertCmp_perm cmp x acc).append_right xs).trans ?_
    simpa using (@List.perm_middle _ x acc xs).symm

theorem mem_sortByCmp (cmp : α → α → Ordering) (l : List α) (a : α) :
    a ∈ sortByCmp cmp l ↔ a ∈ l :=
  (sortByCmp_perm cmp l).mem_iff

/-- Association-list lookup (first match); the maps we build keep their keys
unique, so this agrees with hash-map lookup. -/
def lookupMap (m : List (String × α)) (k : String) : Option α :=
  match m with
  | [] => none
  | (k₁, v) :: rest => if k₁ = k then some v else lookupMap rest k

/-- Insert-overwrite into an association list, modelling `HashMap::insert`. -/
def mapInsert (m : List (String × α)) (k : String) (v : α) : List (String × α) :=
  match m with
  | [] => [(k, v)]
  | (k₁, v₁) :: rest =>
    if k₁ = k then (k₁, v) :: rest else (k₁, v₁) :: mapInsert rest k v

theorem lookupMap_mapInsert (m : List (String × α)) (k k' : String) (v : α) :
    lookupMap (mapInsert m k v) k' = if k = k' then some v else lookupMap m k' := by
  induction m with
  | nil =>
    by_cases h : k = k' <;> simp [mapInsert, lookupMap, h]
  | cons kv rest ih =>
    obtain ⟨k₁, v₁⟩ := kv
    by_cases h₁ : k₁ = k
    · subst h₁
      by_cases h₂ : k₁ = k' <;> simp [mapInsert, lookupMap, h₂]
    · simp only [mapInsert, if_neg h₁, lookupMap]
      by_cases h₂ : k₁ = k'
      · subst h₂
        have : ¬ k = k₁ := fun h => h₁ h.symm
        simp [lookupMap, this]
      · simp [lookupMap, h₂, ih]

theorem lookupMap_mem {m : List (String × α)} {k : String} {v : α}
    (h : lookupMap m k = some v) : (k, v) ∈ m := by
  induction m with
  | nil => simp [lookupMap] at h
  | cons kv rest ih =>
    obtain ⟨k₁, v₁⟩ := kv
    simp only [lookupMap] at h
    split at h
    · rename_i heq
      cases h
      simp [heq]
    · exact List.mem_cons_of_mem _ (ih h)

/-- Character-list implementation of `str::trim` (strip leading and trailing
whitespace); done on `List Char` so the kernel can evaluate it. -/
def trimChars (s : String) : String :=
  String.mk (((s.data.dropWhile Char.isWhitespace).reverse.dropWhile
    Char.isWhitespace).reverse)

/-- Character-list implementation of `str::to_lowercase`. -/
def lowerString (s : String) : String :=
  String.mk (s.data.map Char.toLower)

/-- Mirrors `RankingEntry` from `main.rs`: one aggregated observation per
language per source. -/
structure RankingEntry where
  lang : String
  rank : Option Nat
  share : ℚ
  trend : Option ℚ
deriving Repr, DecidableEq

/-- Mirrors `RawEntry` / `RawSample`: one raw observed row from one source. -/
structure RawEntry where
  lang : String
  rank : Option Nat
  share : ℚ
  trend : Option ℚ
deriving Repr, DecidableEq

/-- Mirrors `normalize_alias_key` from `sources.rs`: drop every whitespace
character and lower-case the rest. -/
def normalize_alias_key (input : String) : String :=
  String.mk ((input.data.filter (fun c => ¬ c.isWhitespace)).map Char.toLower)

/-- The static alias table of `canonical_aliases` in `sources.rs`, as the
association list of its entries (hash-map keys are unique). -/
def canonical_aliases : List (String × String) :=
  [("delphi/objectpascal", "Delphi/Pascal"),
   ("matlab", "Matlab"),
   ("cobol", "COBOL"),
   ("powershell", "PowerShell"),
   ("vbscript", "VBA/VBS"),
   ("vba", "VBA/VBS"),
   ("abap", "Abap"),
   ("(visual)foxpro", "FoxPro"),
   ("c", "C"),
   ("c#", "C#"),
   ("csharp", "C#"),
   ("c-sharp", "C#"),
   ("c++", "C++"),
   ("c/c++", "C/C++"),
   ("f#", "F#"),
   ("fsharp", "F#"),
   ("f-sharp", "F#"),
   ("javascript", "JavaScript"),
   ("js", "JavaScript"),
   ("node", "JavaScript"),
   ("node.js", "JavaScript"),
   ("nodejs", "JavaScript"),
   ("typescript", "TypeScript"),
   ("ts", "TypeScript"),
   ("objective-c", "Objective-C"),
   ("objectivec", "Objective-C"),
   ("obj-c", "Objective-C"),
   ("objc", "Objective-C"),
   ("golang", "Go"),
   ("go", "Go"),
   ("cpp", "C++"),
   ("vb", "Visual Basic"),
   ("vb.net", "Visual Basic"),
   ("vbnet", "Visual Basic"),
   ("visualbasic", "Visual Basic"),
   ("visualbasic.net", "Visual Basic"),
   ("cfml", "CFML"),
   ("clojure", "Clojure"),
   ("commonlisp", "Lisp"),
   ("crystal", "Crystal"),
   ("d", "D"),
   ("dart", "Dart"),
   ("elixir", "Elixir"),
   ("fortran", "Fortran"),
   ("haskell", "Haskell"),
   ("julia", "Julia"),
   ("kotlin", "Kotlin"),
   ("lua", "Lua"),
   ("luau", "Luau"),
   ("nim", "Nim"),
   ("pascal", "Delphi/Pascal"),
   ("prolog", "Prolog"),
   ("python", "Python"),
   ("r", "R"),
   ("ruby", "Ruby"),
   ("rust", "Rust"),
   ("scala", "Scala"),
   ("swift", "Swift"),
   ("ur", "Ur"),
   ("v", "V"),
   ("vala", "Vala"),
   ("zig", "Zig"),
   ("chapel", "Chapel"),
   ("clang", "C/C++"),
   ("csharpaot", "C#"),
   ("csharpcore", "C#"),
   ("dartexe", "Dart"),
   ("dartjit", "Dart"),
   ("erlang", "Erlang"),
   ("fpascal", "Delphi/Pascal"),
   ("fsharpcore", "F#"),
   ("gcc", "C/C++"),
   ("ghc", "Haskell"),
   ("gnat", "Ada"),
   ("gpp", "C/C++"),
   ("graalvm", "Graal"),
   ("icx", "C/C++"),
   ("ifc", "Fortran"),
   ("ifx", "Fortran"),
   ("java", "Java"),
   ("javaxint", "Java"),
   ("micropython", "Python"),
   ("mri", "Ruby"),
   ("ocaml", "OCaml"),
   ("openj9", "Java"),
   ("perl", "Perl"),
   ("pharo", "Smalltalk"),
   ("php", "PHP"),
   ("python3", "Python"),
   ("racket", "Racket"),
   ("sbcl", "Lisp"),
   ("toit", "Toit"),
   ("vw", "")]

/-- Mirrors `canonicalize_language` from `sources.rs`. -/
def canonicalize_language (input : String) : Option String :=
  let trimmed := trimChars input
  if trimmed = "" then none
  else
    match lookupMap canonical_aliases (normalize_alias_key trimmed) with
    | some a => if a = "" then none else some a
    | none => some trimmed

example : canonicalize_language "golang" = some "Go" := by decide
example : canonicalize_language " Node.JS " = some "JavaScript" := by decide
example : canonicalize_language "vw" = none := by decide
example : canonicalize_language "  " = none := by decide
example : canonicalize_language "Brainfuck" = some "Brainfuck" := by decide

/-- Mirrors the `AggregatedEntry` accumulator (its `Default`: no rank, zero
sums, no trend seen). -/
structure AggregatedEntry where
  min_rank : Option Nat
  share_sum : ℚ
  trend_sum : ℚ
  trend_seen : Bool
deriving Repr, DecidableEq

def AggregatedEntry.empty : AggregatedEntry := ⟨none, 0, 0, false⟩

/-- One loop iteration of `aggregate_entries`: fold one raw entry into the
accumulator of its canonical name. -/
def addToAgg (agg : AggregatedEntry) (e : RawEntry) : AggregatedEntry where
  min_rank :=
    match e.rank with
    | none => agg.min_rank
    | some r => some (match agg.min_rank with | none => r | some ex => min ex r)
  share_sum := agg.share_sum + e.share
  trend_sum :=
    match e.trend with
    | none => agg.trend_sum
    | some t => agg.trend_sum + t
  trend_seen := agg.trend_seen || e.trend.isSome

/-- `aggregated.entry(normalized).or_default()` followed by the updates:
modify the accumulator bound to `k`, appending a fresh one if absent. -/
def updAgg (m : List (String × AggregatedEntry)) (k : String) (e : RawEntry) :
    List (String × AggregatedEntry) :=
  match m with
  | [] => [(k, addToAgg AggregatedEntry.empty e)]
  | (k₁, v) :: rest =>
    if k₁ = k then (k₁, addToAgg v e) :: rest else (k₁, v) :: updAgg rest k e

/-- The grouping loop of `aggregate_entries` over the raw entry list. -/
def foldAgg (entries : List RawEntry) (m : List (String × AggregatedEntry)) :
    List (String × AggregatedEntry) :=
  entries.foldl (fun m e =>
    match canonicalize_language e.lang with
    | none => m
    | some k => updAgg m k e) m

/-- The comparator of the final `result.sort_by` in `aggregate_entries`. -/
def cmpEntryLang (a b : RankingEntry) : Ordering := scmp a.lang b.lang

/-- Mirrors `aggregate_entries` from `sources.rs`: canonicalize, group,
fold shares / ranks / trends, then sort by canonical name. -/
def aggregate_entries (entries : List RawEntry) : List RankingEntry :=
  let m := foldAgg entries []
  let result := m.map (fun kv =>
    RankingEntry.mk kv.1 kv.2.min_rank kv.2.share_sum
      (if kv.2.trend_seen then some kv.2.trend_sum else none))
  sortByCmp cmpEntryLang result

example :
    aggregate_entries
      [RawEntry.mk "Go" (some 1) 10 none,
       RawEntry.mk "golang" (some 5) 2 (some (1/10))]
    = [RankingEntry.mk "Go" (some 1) 12 (some (1/10))] := by decide

theorem lookupMap_updAgg (m : List (String × AggregatedEntry)) (k k' : String)
    (e : RawEntry) :
    lookupMap (updAgg m k e) k' =
      if k = k' then some (addToAgg ((lookupMap m k).getD AggregatedEntry.empty) e)
      else lookupMap m k' := by
  induction m with
  | nil =>
    by_cases h : k = k' <;> simp [updAgg, lookupMap, h]
  | cons kv rest ih =>
    obtain ⟨k₁, v₁⟩ := kv
    by_cases h₁ : k₁ = k
    · subst h₁
      by_cases h₂ : k₁ = k' <;> simp [updAgg, lookupMap, h₂]
    · simp only [updAgg, if_neg h₁, lookupMap]
      by_cases h₂ : k₁ = k'
      · subst h₂
        have hne : ¬ k = k₁ := fun h => h₁ h.symm
        simp [lookupMap, hne, h₁]
      · simp [lookupMap, h₂, ih, h₁]

def keysOf (m : List (String × AggregatedEntry)) : List String := m.map Prod.fst

theorem keysOf_updAgg (m : List (String × AggregatedEntry)) (k : String)
    (e : RawEntry) :
    keysOf (updAgg m k e) = if k ∈ keysOf m then keysOf m else keysOf m ++ [k] := by
  induction m with
  | nil => simp [updAgg, keysOf]
  | cons kv rest ih =>
    obtain ⟨k₁, v₁⟩ := kv
    by_cases h₁ : k₁ = k
    · subst h₁
      simp [updAgg, keysOf]
    · have hne : ¬ k = k₁ := fun h => h₁ h.symm
      by_cases h₂ : k ∈ keysOf rest
      all_goals
        simp only [keysOf] at h₂ ih
        simp [updAgg, if_neg h₁, keysOf, hne, h₂] at ih ⊢
        exact ih

theorem nodup_keysOf_updAgg {m : List (String × AggregatedEntry)} {k : String}
    {e : RawEntry} (h : (keysOf m).Nodup) : (keysOf (updAgg m k e)).Nodup := by
  rw [keysOf_updAgg]
  split
  · exact h
  · rename_i hk
    exact ((List.perm_append_singleton k (keysOf m)).nodup_iff).2 (h.cons hk)

theorem nodup_keysOf_foldAgg (entries : List RawEntry)
    {m : List (String × AggregatedEntry)} (h : (keysOf m).Nodup) :
    (keysOf (foldAgg entries m)).Nodup := by
  induction entries generalizing m with
  | nil => exact h
  | cons e es ih =>
    show (keysOf (foldAgg es _)).Nodup
    cases hc : canonicalize_language e.lang with
    | none => exact ih (by simpa [foldAgg, hc] using h)
    | some k =>
      have : foldAgg (e :: es) m = foldAgg es (updAgg m k e) := by
        simp [foldAgg, hc]
      exact this ▸ ih (nodup_keysOf_updAgg h)

theorem mem_iff_lookupMap {α : Type} {m : List (String × α)}
    (h : (m.map Prod.fst).Nodup) (k : String) (v : α) :
    (k, v) ∈ m ↔ lookupMap m k = some v := by
  induction m with
  | nil => simp [lookupMap]
  | cons kv rest ih =>
    obtain ⟨k₁, v₁⟩ := kv
    simp only [List.map_cons, List.nodup_cons] at h
    by_cases h₂ : k₁ = k
    · subst h₂
      simp only [lookupMap, if_pos rfl, List.mem_cons]
      constructor
      · rintro (heq | hmem)
        · cases heq; rfl
        · exact absurd (List.mem_map_of_mem Prod.fst hmem) h.1
      · rintro heq
        cases heq
        exact Or.inl rfl
    · simp only [lookupMap, if_neg h₂, List.mem_cons]
      rw [← ih h.2]
      constructor
      · rintro (heq | hmem)
        · cases heq; exact absurd rfl h₂
        · exact hmem
      · exact Or.inr

/-- The raw entries of a source that canonicalize to the language `k`. -/
def contribs (entries : List RawEntry) (k : String) : List RawEntry :=
  entries.filter (fun e => decide (canonicalize_language e.lang = some k))

theorem lookupMap_foldAgg (entries : List RawEntry)
    (m : List (String × AggregatedEntry)) (k : String) :
    lookupMap (foldAgg entries m) k =
      match lookupMap m k with
      | some v => some ((contribs entries k).foldl addToAgg v)
      | none =>
        if contribs entries k = [] then none
        else some ((contribs entries k).foldl addToAgg AggregatedEntry.empty) := by
  induction entries generalizing m with
  | nil =>
    cases h : lookupMap m k <;> simp [foldAgg, contribs, h]
  | cons e es ih =>
    cases hc : canonicalize_language e.lang with
    | none =>
      have hstep : foldAgg (e :: es) m = foldAgg es m := by simp [foldAgg, hc]
      have hfil : contribs (e :: es) k = contribs es k := by
        simp [contribs, List.filter_cons, hc]
      rw [hstep, hfil]
      exact ih m
    | some k₁ =>
      have hstep : foldAgg (e :: es) m = foldAgg es (updAgg m k₁ e) := by
        simp [foldAgg, hc]
      by_cases hk : k₁ = k
      · subst hk
        have hfil : contribs (e :: es) k₁ = e :: contribs es k₁ := by
          simp [contribs, List.filter_cons, hc]
        rw [hstep, hfil, ih, lookupMap_updAgg, if_pos rfl]
        cases h : lookupMap m k₁ <;> simp [h]
      · have hfil : contribs (e :: es) k = contribs es k := by
          simp [contribs, List.filter_cons, hc, hk]
        rw [hstep, hfil, ih, lookupMap_updAgg, if_neg hk]

theorem foldl_addToAgg_share (fs : List RawEntry) (a : AggregatedEntry) :
    (fs.foldl addToAgg a).share_sum = a.share_sum + (fs.map RawEntry.share).sum := by
  induction fs generalizing a with
  | nil => simp
  | cons e es ih =>
    simp only [List.foldl_cons, List.map_cons, List.sum_cons]
    rw [ih]
    simp [addToAgg]
    ring

theorem foldl_addToAgg_trend_seen (fs : List RawEntry) (a : AggregatedEntry) :
    (fs.foldl addToAgg a).trend_seen
      = (a.trend_seen || fs.any (fun e => e.trend.isSome)) := by
  induction fs generalizing a with
  | nil => simp
  | cons e es ih =>
    simp only [List.foldl_cons, List.any_cons]
    rw [ih]
    simp [addToAgg, Bool.or_assoc]

theorem foldl_addToAgg_trend_sum (fs : List RawEntry) (a : AggregatedEntry) :
    (fs.foldl addToAgg a).trend_sum
      = a.trend_sum + (fs.filterMap RawEntry.trend).sum := by
  induction fs generalizing a with
  | nil => simp
  | cons e es ih =>
    simp only [List.foldl_cons]
    rw [ih]
    cases ht : e.trend with
    | none => simp [addToAgg, ht, List.filterMap_cons]
    | some t =>
      simp [addToAgg, ht, List.filterMap_cons]
      ring

/-- Combine two optional minima (absent = no observation yet). -/
def mergeMin : Option Nat → Option Nat → Option Nat
  | none, o => o
  | some x, none => some x
  | some x, some y => some (min x y)

/-- The minimum of a list of naturals, `none` on the empty list. -/
def minNat? : List Nat → Option Nat
  | [] => none
  | r :: rs => mergeMin (some r) (minNat? rs)

theorem addToAgg_min_rank (a : AggregatedEntry) (e : RawEntry) :
    (addToAgg a e).min_rank = mergeMin a.min_rank e.rank := by
  cases hr : e.rank <;> cases ha : a.min_rank <;> simp [addToAgg, mergeMin, hr, ha]

theorem mergeMin_assoc (x y z : Option Nat) :
    mergeMin (mergeMin x y) z = mergeMin x (mergeMin y z) := by
  cases x <;> cases y <;> cases z <;> simp [mergeMin, Nat.min_assoc]

theorem mergeMin_none_right (x : Option Nat) : mergeMin x none = x := by
  cases x <;> simp [mergeMin]

theorem foldl_addToAgg_min_rank (fs : List RawEntry) (a : AggregatedEntry) :
    (fs.foldl addToAgg a).min_rank
      = mergeMin a.min_rank (minNat? (fs.filterMap RawEntry.rank)) := by
  induction fs generalizing a with
  | nil => simp [mergeMin_none_right, minNat?]
  | cons e es ih =>
    simp only [List.foldl_cons]
    rw [ih, addToAgg_min_rank, mergeMin_assoc]
    cases hr : e.rank with
    | none => simp [List.filterMap_cons, hr, mergeMin]
    | some r => simp [List.filterMap_cons, hr, minNat?]

theorem minNat?_eq_none_iff (l : List Nat) : minNat? l = none ↔ l = [] := by
  cases l with
  | nil => simp [minNat?]
  | cons r rs =>
    simp only [minNat?]
    cases minNat? rs <;> simp [mergeMin]

theorem minNat?_spec (l : List Nat) (r : Nat) (h : minNat? l = some r) :
    r ∈ l ∧ ∀ x ∈ l, r ≤ x := by
  induction l generalizing r with
  | nil => simp [minNat?] at h
  | cons a rs ih =>
    simp only [minNat?] at h
    cases hrs : minNat? rs with
    | none =>
      rw [hrs] at h
      simp [mergeMin] at h
      subst h
      have := (minNat?_eq_none_iff rs).1 hrs
      subst this
      simp
    | some m =>
      rw [hrs] at h
      simp [mergeMin] at h
      obtain ⟨hm, hle⟩ := ih m hrs
      subst h
      refine ⟨?_, ?_⟩
      · rcases Nat.le_total a m with hc | hc
        · simp [Nat.min_eq_left hc]
        · right
          rw [Nat.min_eq_right hc]
          exact hm
      · intro x hx
        rcases List.mem_cons.1 hx with hx | hx
        · simp [hx, Nat.min_le_left]
        · exact le_trans (Nat.min_le_right a m) (hle x hx)

theorem string_lt_iff_data {a b : String} : a < b ↔ List.lt a.data b.data := by
  rw [String.lt_iff_toList_lt]
  constructor
  · intro h
    exact (List.lt_iff_lex_lt _ _).2 h
  · intro h
    exact (List.lt_iff_lex_lt _ _).1 h

theorem scmp_eq_lt {a b : String} : scmp a b = .lt ↔ a < b := by
  unfold scmp
  split_ifs with h₁ h₂
  · simp only [true_iff]
    exact string_lt_iff_data.2 ((sltb_iff _ _).1 h₁)
  · subst h₂
    simp [lt_irrefl]
  · simp only [reduceCtorEq, false_iff]
    intro h
    exact h₁ ((sltb_iff _ _).2 (string_lt_iff_data.1 h))

theorem scmp_eq_gt {a b : String} : scmp a b = .gt ↔ b < a := by
  unfold scmp
  split_ifs with h₁ h₂
  · simp only [reduceCtorEq, false_iff]
    have hab : a < b := string_lt_iff_data.2 ((sltb_iff _ _).1 h₁)
    exact fun hba => absurd (hab.trans hba) (lt_irrefl a)
  · subst h₂
    simp [lt_irrefl]
  · simp only [true_iff]
    rcases lt_trichotomy a b with h | h | h
    · exact absurd ((sltb_iff _ _).2 (string_lt_iff_data.1 h)) h₁
    · exact absurd h h₂
    · exact h

theorem scmp_eq_eq {a b : String} : scmp a b = .eq ↔ a = b := by
  unfold scmp
  split_ifs with h₁ h₂
  · simp only [reduceCtorEq, false_iff]
    rintro rfl
    exact lt_irrefl _ (string_lt_iff_data.2 ((sltb_iff _ _).1 h₁))
  · simp [h₂]
  · simp [h₂]

theorem insertCmp_pairwise (cmp : α → α → Ordering)
    (hswap : ∀ a b, cmp a b = .lt ↔ cmp b a = .gt)
    (htrans : ∀ a b c, cmp a b ≠ .gt → cmp b c ≠ .gt → cmp a c ≠ .gt)
    (x : α) (l : List α) (h : l.Pairwise (fun a b => cmp a b ≠ .gt)) :
    (insertCmp cmp x l).Pairwise (fun a b => cmp a b ≠ .gt) := by
  induction l with
  | nil => simp [insertCmp]
  | cons y ys ih =>
    rw [List.pairwise_cons] at h
    obtain ⟨hy, hys⟩ := h
    simp only [insertCmp]
    split
    · rename_i hxy
      rw [List.pairwise_cons]
      constructor
      · intro z hz
        rcases List.mem_cons.1 hz with hz | hz
        · subst hz
          simp [hxy]
        · exact htrans x y z (by simp [hxy]) (hy z hz)
      · exact List.pairwise_cons.2 ⟨hy, hys⟩
    · rename_i hxy
      rw [List.pairwise_cons]
      constructor
      · intro z hz
        rcases List.mem_cons.1 ((insertCmp_perm cmp x ys).mem_iff.1 hz) with hz' | hz'
        · rw [hz']
          intro hyx
          exact hxy ((hswap x y).2 hyx)
        · exact hy z hz'
      · exact ih hys

theorem sortByCmp_pairwise (cmp : α → α → Ordering)
    (hswap : ∀ a b, cmp a b = .lt ↔ cmp b a = .gt)
    (htrans : ∀ a b c, cmp a b ≠ .gt → cmp b c ≠ .gt → cmp a c ≠ .gt)
    (l : List α) :
    (sortByCmp cmp l).Pairwise (fun a b => cmp a b ≠ .gt) := by
  suffices h : ∀ (l acc : List α), acc.Pairwise (fun a b => cmp a b ≠ .gt) →
      (l.foldl (fun acc x => insertCmp cmp x acc) acc).Pairwise
        (fun a b => cmp a b ≠ .gt) by
    exact h l [] (by simp)
  intro l
  induction l with
  | nil => intro acc hacc; exact hacc
  | cons x xs ih =>
    intro acc hacc
    exact ih _ (insertCmp_pairwise cmp hswap htrans x acc hacc)

/-- The per-group rendering step of `aggregate_entries`. -/
def renderAgg (kv : String × AggregatedEntry) : RankingEntry :=
  RankingEntry.mk kv.1 kv.2.min_rank kv.2.share_sum
    (if kv.2.trend_seen then some kv.2.trend_sum else none)

theorem mem_aggregate_entries {entries : List RawEntry} {en : RankingEntry}
    (h : en ∈ aggregate_entries entries) :
    contribs entries en.lang ≠ [] ∧
    en.rank = ((contribs entries en.lang).foldl addToAgg AggregatedEntry.empty).min_rank ∧
    en.share = ((contribs entries en.lang).foldl addToAgg AggregatedEntry.empty).share_sum ∧
    en.trend = (if ((contribs entries en.lang).foldl addToAgg
        AggregatedEntry.empty).trend_seen
      then some ((contribs entries en.lang).foldl addToAgg
        AggregatedEntry.empty).trend_sum
      else none) := by
  have h0 : aggregate_entries entries
      = sortByCmp cmpEntryLang ((foldAgg entries []).map renderAgg) := rfl
  rw [h0] at h
  have h₁ := (sortByCmp_perm cmpEntryLang _).mem_iff.1 h
  obtain ⟨kv, hkv, hren⟩ := List.mem_map.1 h₁
  have hnodup : (keysOf (foldAgg entries [])).Nodup :=
    nodup_keysOf_foldAgg entries (by simp [keysOf])
  have hlk : lookupMap (foldAgg entries []) kv.1 = some kv.2 :=
    (mem_iff_lookupMap hnodup kv.1 kv.2).1 (by simpa using hkv)
  rw [lookupMap_foldAgg] at hlk
  have hnil : lookupMap ([] : List (String × AggregatedEntry)) kv.1 = none := rfl
  rw [hnil] at hlk
  simp only [] at hlk
  by_cases hc : contribs entries kv.1 = []
  · rw [if_pos hc] at hlk
    cases hlk
  · rw [if_neg hc] at hlk
    have hv : kv.2 = (contribs entries kv.1).foldl addToAgg AggregatedEntry.empty :=
      (Option.some.inj hlk).symm
    have hlang : en.lang = kv.1 := by rw [← hren]; rfl
    rw [← hren]
    refine ⟨by rw [show (renderAgg kv).lang = kv.1 from rfl]; exact hc, ?_, ?_, ?_⟩
    · rw [show (renderAgg kv).lang = kv.1 from rfl,
        show (renderAgg kv).rank = kv.2.min_rank from rfl, hv]
    · rw [show (renderAgg kv).lang = kv.1 from rfl,
        show (renderAgg kv).share = kv.2.share_sum from rfl, hv]
    · rw [show (renderAgg kv).lang = kv.1 from rfl]
      show (if kv.2.trend_seen then some kv.2.trend_sum else none) = _
      rw [hv]

/-- The worked example input of the spec: two raw samples that both
canonicalize to Go. -/
def c5entries : List RawEntry :=
  [RawEntry.mk "Go" (some 1) 10 none,
   RawEntry.mk "golang" (some 5) 2 (some (1/10))]

/-- The expected aggregate of `c5entries`. -/
def c5goEntry : RankingEntry := RankingEntry.mk "Go" (some 1) 12 (some (1/10))

/-- C5: for every list of raw samples from one source, the aggregated output
has unique canonical names sorted strictly ascending; each output entry's
share is the sum of the contributing raw shares, its rank is the minimum of
the present contributing ranks (absent when none is present), and its trend
is the sum of the contributing trends when at least one contributor reported
a trend (absent otherwise); the worked example (raw samples Go/1/10.0/none
and golang/5/2.0/+0.1) aggregates to the single entry Go/1/12.0/+0.1. -/
theorem claim_C5_aggregate_entries (entries : List RawEntry) :
    ((aggregate_entries entries).Pairwise (fun a b => a.lang < b.lang)) ∧
    (∀ en ∈ aggregate_entries entries,
      en.share = ((contribs entries en.lang).map RawEntry.share).sum ∧
      (en.rank = none ↔ (contribs entries en.lang).filterMap RawEntry.rank = []) ∧
      (∀ r, en.rank = some r →
        r ∈ (contribs entries en.lang).filterMap RawEntry.rank ∧
        ∀ x ∈ (contribs entries en.lang).filterMap RawEntry.rank, r ≤ x) ∧
      en.trend = (if (contribs entries en.lang).any (fun e => e.trend.isSome)
        then some (((contribs entries en.lang).filterMap RawEntry.trend).sum)
        else none)) ∧
    (∀ lang, (∃ en ∈ aggregate_entries entries, en.lang = lang) ↔
      contribs entries lang ≠ []) ∧
    aggregate_entries c5entries = [c5goEntry] := by
  refine ⟨?_, ?_, ?_, by decide⟩
  · have hle : (aggregate_entries entries).Pairwise
        (fun a b => cmpEntryLang a b ≠ .gt) := by
      have h0 : aggregate_entries entries
          = sortByCmp cmpEntryLang ((foldAgg entries []).map renderAgg) := rfl
      rw [h0]
      apply sortByCmp_pairwise
      · intro a b
        simp [cmpEntryLang, scmp_eq_lt, scmp_eq_gt]
      · intro a b c hab hbc
        simp only [cmpEntryLang, Ne, scmp_eq_gt] at hab hbc ⊢
        rw [not_lt] at hab hbc ⊢
        exact le_trans hab hbc
    have hnames : ((aggregate_entries entries).map RankingEntry.lang).Nodup := by
      have hperm : List.Perm ((aggregate_entries entries).map RankingEntry.lang)
          (((foldAgg entries []).map renderAgg).map RankingEntry.lang) :=
        (sortByCmp_perm cmpEntryLang _).map _
      rw [hperm.nodup_iff, List.map_map]
      have hcomp : RankingEntry.lang ∘ renderAgg = Prod.fst := rfl
      rw [hcomp]
      exact nodup_keysOf_foldAgg entries (by simp [keysOf])
    have hne : (aggregate_entries entries).Pairwise
        (fun a b => a.lang ≠ b.lang) := by
      rw [List.Nodup, List.pairwise_map] at hnames
      exact hnames
    have hle2 : (aggregate_entries entries).Pairwise
        (fun a b => a.lang ≤ b.lang) := by
      refine hle.imp ?_
      intro a b h
      rw [Ne, cmpEntryLang, scmp_eq_gt] at h
      exact le_of_not_lt h
    exact (hle2.and hne).imp (fun h => lt_of_le_of_ne h.1 h.2)
  · intro en hmem
    obtain ⟨hc, hrank, hshare, htrend⟩ := mem_aggregate_entries hmem
    refine ⟨?_, ?_, ?_, ?_⟩
    · rw [hshare, foldl_addToAgg_share]
      simp [AggregatedEntry.empty]
    · rw [hrank, foldl_addToAgg_min_rank]
      simp only [AggregatedEntry.empty, mergeMin]
      exact minNat?_eq_none_iff _
    · intro r hr
      rw [hrank, foldl_addToAgg_min_rank] at hr
      simp only [AggregatedEntry.empty, mergeMin] at hr
      exact minNat?_spec _ r hr
    · rw [htrend, foldl_addToAgg_trend_seen, foldl_addToAgg_trend_sum]
      simp [AggregatedEntry.empty]
  · intro lang
    constructor
    · rintro ⟨en, hen, rfl⟩
      exact (mem_aggregate_entries hen).1
    · intro hc
      have hlk : lookupMap (foldAgg entries []) lang
          = some ((contribs entries lang).foldl addToAgg AggregatedEntry.empty) := by
        rw [lookupMap_foldAgg]
        have hnil : lookupMap ([] : List (String × AggregatedEntry)) lang = none := rfl
        rw [hnil]
        simp only []
        rw [if_neg hc]
      have hmem' : (lang, (contribs entries lang).foldl addToAgg AggregatedEntry.empty)
          ∈ foldAgg entries [] := lookupMap_mem hlk
      refine ⟨renderAgg (lang, (contribs entries lang).foldl addToAgg
        AggregatedEntry.empty), ?_, rfl⟩
      have h0 : aggregate_entries entries
          = sortByCmp cmpEntryLang ((foldAgg entries []).map renderAgg) := rfl
      rw [h0, mem_sortByCmp]
      exact List.mem_map_of_mem renderAgg hmem'

/-- Witness for C5 at the worked example: the Go entry is in the aggregate
and satisfies the per-group characterization. -/
theorem claim_C5_aggregate_entries_witness :
    c5goEntry ∈ aggregate_entries c5entries ∧
    (c5goEntry.share = ((contribs c5entries c5goEntry.lang).map RawEntry.share).sum ∧
      (c5goEntry.rank = none ↔
        (contribs c5entries c5goEntry.lang).filterMap RawEntry.rank = []) ∧
      (∀ r, c5goEntry.rank = some r →
        r ∈ (contribs c5entries c5goEntry.lang).filterMap RawEntry.rank ∧
        ∀ x ∈ (contribs c5entries c5goEntry.lang).filterMap RawEntry.rank, r ≤ x) ∧
      c5goEntry.trend
        = (if (contribs c5entries c5goEntry.lang).any (fun e => e.trend.isSome)
          then some (((contribs c5entries c5goEntry.lang).filterMap
            RawEntry.trend).sum)
          else none)) :=
  ⟨by decide, (claim_C5_aggregate_entries c5entries).2.1 c5goEntry (by decide)⟩

/-- C6: canonicalizing a raw label strips all whitespace and lower-cases it
before the static alias-table lookup; an alias target that is the empty
string drops the sample (no canonical name), a found non-empty alias yields
its target, and an unrecognized label passes through as its trimmed original
unless that is empty, in which case it yields nothing. -/
theorem claim_C6_canonicalize_language (input : String) :
    (lookupMap canonical_aliases (normalize_alias_key (trimChars input))
        = some "" → canonicalize_language input = none) ∧
    (∀ a, a ≠ "" →
      lookupMap canonical_aliases (normalize_alias_key (trimChars input))
        = some a → canonicalize_language input = some a) ∧
    (lookupMap canonical_aliases (normalize_alias_key (trimChars input)) = none →
      canonicalize_language input
        = (if trimChars input = "" then none else some (trimChars input))) := by
  by_cases ht : trimChars input = ""
  · refine ⟨?_, ?_, ?_⟩
    · intro h
      rw [ht] at h
      exact absurd h (by decide)
    · intro a _ h
      rw [ht] at h
      have hn : lookupMap canonical_aliases (normalize_alias_key "") = none := by
        decide
      rw [hn] at h
      cases h
    · intro _
      simp [canonicalize_language, ht]
  · refine ⟨?_, ?_, ?_⟩
    · intro h
      simp [canonicalize_language, ht, h]
    · intro a ha h
      simp [canonicalize_language, ht, h, ha]
    · intro h
      simp [canonicalize_language, ht, h]

/-- Witness for C6: an alias mapped to the empty target is dropped, a
whitespace/case variant resolves through the table, and an unknown label
passes through trimmed. -/
theorem claim_C6_canonicalize_language_witness :
    canonicalize_language "vw" = none ∧
    canonicalize_language " Node.JS " = some "JavaScript" ∧
    canonicalize_language "Brainfuck" = some "Brainfuck" := by
  refine ⟨(claim_C6_canonicalize_language "vw").1 (by decide),
    (claim_C6_canonicalize_language " Node.JS ").2.1 "JavaScript" (by decide)
      (by decide), ?_⟩
  have h := (claim_C6_canonicalize_language "Brainfuck").2.2 (by decide)
  rw [h]
  decide

/-- `f64::EPSILON` (2 to the power -52) as an exact rational. -/
def f64Epsilon : ℚ := 1 / 4503599627370496

/-- Mirrors `adjust_pypl_entries` from `main.rs`: when TIOBE has separate C
and C++ entries and PYPL has a combined C/C++ entry, remove the combined
entry and split it in the ratio of the TIOBE shares (the split is skipped
and the entry restored when the TIOBE share sum is at most `f64::EPSILON`);
the list is re-sorted by language name in both branches. -/
def adjust_pypl_entries (tiobe : List RankingEntry) (pypl : List RankingEntry) :
    List RankingEntry :=
  match tiobe.find? (fun e => decide (e.lang = "C")),
      tiobe.find? (fun e => decide (e.lang = "C++")),
      pypl.findIdx? (fun e => decide (e.lang = "C/C++")) with
  | some cData, some cppData, some pos =>
    let combined := (pypl.get? pos).getD (RankingEntry.mk "C/C++" none 0 none)
    let rest := pypl.eraseIdx pos
    let shareSum := cData.share + cppData.share
    if shareSum ≤ f64Epsilon then
      sortByCmp cmpEntryLang (rest ++ [combined])
    else
      let cppRatio := cppData.share / shareSum
      let cRatio := 1 - cppRatio
      sortByCmp cmpEntryLang (rest ++
        [RankingEntry.mk "C++" combined.rank (combined.share * cppRatio)
          (combined.trend.map (fun t => t * cppRatio)),
         RankingEntry.mk "C" combined.rank (combined.share * cRatio)
          (combined.trend.map (fun t => t * cRatio))])
  | _, _, _ => pypl

theorem perm_get_eraseIdx {l : List α} {i : ℕ} {a : α}
    (h : l.get? i = some a) : List.Perm l (a :: l.eraseIdx i) := by
  induction l generalizing i with
  | nil => simp at h
  | cons b tl ih =>
    cases i with
    | zero =>
      cases h
      exact List.Perm.refl _
    | succ j =>
      have h' : tl.get? j = some a := h
      exact ((ih h').cons b).trans (List.Perm.swap a b _)

/-- C4: when TIOBE has separate C and C++ entries with shares sx, sy and PYPL
has a combined C/C++ entry with share S and trend T, the combined entry is
replaced by two entries with shares S·sy/(sx+sy) (C++) and S·sx/(sx+sy) (C)
and trends scaled by the same ratios, whenever sx+sy exceeds the machine
epsilon; if sx+sy is numerically zero the combined entry is kept unsplit; on
the spec example (TIOBE C=5, C++=15, combined share 20, trend 2) the result
is exactly C=5 and C++=15 with trends 0.5 and 1.5. -/
theorem claim_C4_adjust_pypl_entries :
    (∀ (tiobe pypl : List RankingEntry) (cD cppD : RankingEntry)
        (pos : ℕ) (combined : RankingEntry),
      tiobe.find? (fun e => decide (e.lang = "C")) = some cD →
      tiobe.find? (fun e => decide (e.lang = "C++")) = some cppD →
      pypl.findIdx? (fun e => decide (e.lang = "C/C++")) = some pos →
      pypl.get? pos = some combined →
      ((f64Epsilon < cD.share + cppD.share →
        List.Perm (adjust_pypl_entries tiobe pypl)
          (pypl.eraseIdx pos ++
            [RankingEntry.mk "C++" combined.rank
              (combined.share * (cppD.share / (cD.share + cppD.share)))
              (combined.trend.map
                (fun t => t * (cppD.share / (cD.share + cppD.share)))),
             RankingEntry.mk "C" combined.rank
              (combined.share * (cD.share / (cD.share + cppD.share)))
              (combined.trend.map
                (fun t => t * (cD.share / (cD.share + cppD.share))))])) ∧
       (cD.share + cppD.share = 0 →
        List.Perm (adjust_pypl_entries tiobe pypl) pypl))) ∧
    adjust_pypl_entries
        [RankingEntry.mk "C" none 5 none, RankingEntry.mk "C++" none 15 none]
        [RankingEntry.mk "C/C++" (some 4) 20 (some 2)]
      = [RankingEntry.mk "C" (some 4) 5 (some (1/2)),
         RankingEntry.mk "C++" (some 4) 15 (some (3/2))] := by
  constructor
  · intro tiobe pypl cD cppD pos combined hfc hfcpp hidx hget
    have hsum_ne : f64Epsilon < cD.share + cppD.share →
        cD.share + cppD.share ≠ 0 := by
      intro h
      have heps : (0 : ℚ) < f64Epsilon := by decide
      exact ne_of_gt (heps.trans h)
    constructor
    · intro hlt
      have hne := hsum_ne hlt
      have hru : (1 : ℚ) - cppD.share / (cD.share + cppD.share)
          = cD.share / (cD.share + cppD.share) := by
        field_simp
      have hres : adjust_pypl_entries tiobe pypl
          = sortByCmp cmpEntryLang (pypl.eraseIdx pos ++
            [RankingEntry.mk "C++" combined.rank
              (combined.share * (cppD.share / (cD.share + cppD.share)))
              (combined.trend.map
                (fun t => t * (cppD.share / (cD.share + cppD.share)))),
             RankingEntry.mk "C" combined.rank
              (combined.share * (cD.share / (cD.share + cppD.share)))
              (combined.trend.map
                (fun t => t * (cD.share / (cD.share + cppD.share))))]) := by
        rw [adjust_pypl_entries, hfc, hfcpp, hidx]
        simp only [hget, Option.getD_some]
        rw [if_neg (not_le.2 hlt), hru]
      rw [hres]
      exact sortByCmp_perm _ _
    · intro hzero
      have hle : cD.share + cppD.share ≤ f64Epsilon := by
        rw [hzero]
        decide
      have hres : adjust_pypl_entries tiobe pypl
          = sortByCmp cmpEntryLang (pypl.eraseIdx pos ++ [combined]) := by
        rw [adjust_pypl_entries, hfc, hfcpp, hidx]
        simp only [hget, Option.getD_some]
        rw [if_pos hle]
      rw [hres]
      refine (sortByCmp_perm _ _).trans ?_
      refine (List.perm_append_singleton _ _).trans ?_
      exact (perm_get_eraseIdx hget).symm
  · decide

/-- Witness for C4: the split branch on the spec example and the unsplit
branch when both TIOBE shares are zero. -/
theorem claim_C4_adjust_pypl_entries_witness :
    List.Perm
      (adjust_pypl_entries
        [RankingEntry.mk "C" none 5 none, RankingEntry.mk "C++" none 15 none]
        [RankingEntry.mk "C/C++" (some 4) 20 (some 2)])
      ([RankingEntry.mk "C/C++" (some 4) 20 (some 2)].eraseIdx 0 ++
        [RankingEntry.mk "C++" (some 4) (20 * ((15 : ℚ) / (5 + 15)))
          ((some (2 : ℚ)).map (fun t => t * ((15 : ℚ) / (5 + 15)))),
         RankingEntry.mk "C" (some 4) (20 * ((5 : ℚ) / (5 + 15)))
          ((some (2 : ℚ)).map (fun t => t * ((5 : ℚ) / (5 + 15))))]) ∧
    List.Perm
      (adjust_pypl_entries
        [RankingEntry.mk "C" none 0 none, RankingEntry.mk "C++" none 0 none]
        [RankingEntry.mk "C/C++" (some 4) 20 (some 2)])
      [RankingEntry.mk "C/C++" (some 4) 20 (some 2)] :=
  ⟨(claim_C4_adjust_pypl_entries.1
      [RankingEntry.mk "C" none 5 none, RankingEntry.mk "C++" none 15 none]
      [RankingEntry.mk "C/C++" (some 4) 20 (some 2)]
      (RankingEntry.mk "C" none 5 none) (RankingEntry.mk "C++" none 15 none)
      0 (RankingEntry.mk "C/C++" (some 4) 20 (some 2))
      (by decide) (by decide) (by decide) (by decide)).1 (by decide),
   (claim_C4_adjust_pypl_entries.1
      [RankingEntry.mk "C" none 0 none, RankingEntry.mk "C++" none 0 none]
      [RankingEntry.mk "C/C++" (some 4) 20 (some 2)]
      (RankingEntry.mk "C" none 0 none) (RankingEntry.mk "C++" none 0 none)
      0 (RankingEntry.mk "C/C++" (some 4) 20 (some 2))
      (by decide) (by decide) (by decide) (by decide)).2 (by decide)⟩

/-- The `index_map` of `build_preference_matrices`: language name to index in
the candidate list (hash-map insertion means a later duplicate would win). -/
def indexOfLang (languages : List String) (lang : String) : Option ℕ :=
  ((languages.enum.filter (fun p => decide (p.2 = lang))).getLast?).map Prod.fst

/-- The `positions` vector for one ballot: start at all zeros, then write each
ballot position into the slot of its language. -/
def positionsOf (languages : List String) (ballot : List String) : ℕ → ℕ :=
  ballot.enum.foldl (fun f p =>
    match indexOfLang languages p.2 with
    | some i => Function.update f i p.1
    | none => f) (fun _ => 0)

/-- The pairwise defeat matrix `d`: over all ballots, count those placing `i`
strictly before `j`; entries outside the candidate square or on the diagonal
stay zero, as in the `Array2::zeros` initialization. -/
def dMatrix (languages : List String) (ballots : List (List String)) :
    ℕ → ℕ → ℕ :=
  fun i j =>
    if i < languages.length ∧ j < languages.length ∧ i ≠ j then
      (ballots.map (fun b =>
        if positionsOf languages b i < positionsOf languages b j then 1 else 0)).sum
    else 0

/-- The initial strength matrix: `p[i][j] = d[i][j]` when `d[i][j] > d[j][i]`,
else zero. -/
def pInitMatrix (languages : List String) (ballots : List (List String)) :
    ℕ → ℕ → ℕ :=
  fun i j =>
    if i < languages.length ∧ j < languages.length ∧ i ≠ j ∧
        dMatrix languages ballots j i < dMatrix languages ballots i j then
      dMatrix languages ballots i j
    else 0

/-- One iteration of the widening loop for a fixed intermediate `i`: inside
iteration `i` the writes target only cells off row/column `i`, and the reads
come only from row/column `i`, so the whole inner double loop is a pure
function of the matrix at the start of the iteration. -/
def fwStep (n i : ℕ) (q : ℕ → ℕ → ℕ) : ℕ → ℕ → ℕ :=
  fun j k =>
    if j < n ∧ k < n ∧ j ≠ k ∧ j ≠ i ∧ k ≠ i then
      max (q j k) (min (q j i) (q i k))
    else q j k

/-- The full widening pass of `build_preference_matrices`: `i` outermost over
`0..n`, `j`, `k` inner. -/
def fwPass (n : ℕ) (q : ℕ → ℕ → ℕ) : ℕ → ℕ → ℕ :=
  (List.range n).foldl (fun q i => fwStep n i q) q

/-- Mirrors `build_preference_matrices` from `main.rs`: the defeat matrix and
the beatpath strength matrix after the widening pass. -/
def build_preference_matrices (languages : List String)
    (ballots : List (List String)) : (ℕ → ℕ → ℕ) × (ℕ → ℕ → ℕ) :=
  (dMatrix languages ballots,
   fwPass languages.length (pInitMatrix languages ballots))

theorem fwStep_col (n i : ℕ) (q : ℕ → ℕ → ℕ) (j : ℕ) :
    fwStep n i q j i = q j i := by
  unfold fwStep
  rw [if_neg]
  rintro ⟨-, -, -, -, h⟩
  exact h rfl

theorem fwStep_row (n i : ℕ) (q : ℕ → ℕ → ℕ) (k : ℕ) :
    fwStep n i q i k = q i k := by
  unfold fwStep
  rw [if_neg]
  rintro ⟨-, -, -, h, -⟩
  exact h rfl

theorem fwStep_main {n i j k : ℕ} (q : ℕ → ℕ → ℕ) (hj : j < n) (hk : k < n)
    (hjk : j ≠ k) (hji : j ≠ i) (hki : k ≠ i) :
    fwStep n i q j k = max (q j k) (min (q j i) (q i k)) := by
  unfold fwStep
  rw [if_pos ⟨hj, hk, hjk, hji, hki⟩]

/-- The invariant of the widening pass: the triangle property holds for every
intermediate index already processed. -/
def FwInv (n m : ℕ) (q : ℕ → ℕ → ℕ) : Prop :=
  ∀ i j k, i < m → j < n → k < n → j ≠ k → i ≠ j → i ≠ k →
    min (q j i) (q i k) ≤ q j k

theorem fwStep_inv {n m : ℕ} {q : ℕ → ℕ → ℕ} (hmn : m < n) (h : FwInv n m q) :
    FwInv n (m + 1) (fwStep n m q) := by
  intro i j k hi hj hk hjk hij hik
  rcases Nat.lt_succ_iff_lt_or_eq.1 hi with him | him
  · have hinm : i ≠ m := Nat.ne_of_lt him
    by_cases hjm : j = m
    · subst hjm
      have hin : i < n := lt_trans him hmn
      have hkj : k ≠ j := fun he => hjk he.symm
      rw [fwStep_row, fwStep_row,
        fwStep_main (n := n) (i := j) (j := i) (k := k) q hin hk hik hij hkj]
      have ih1 : min (q j i) (q i k) ≤ q j k := h i j k him hj hk hjk hij hik
      omega
    · by_cases hkm : k = m
      · subst hkm
        have hin : i < n := lt_trans him hmn
        have hji : j ≠ i := fun he => hij he.symm
        rw [fwStep_col, fwStep_col,
          fwStep_main (n := n) (i := k) (j := j) (k := i) q hj hin hji hjk hik]
        have ih1 : min (q j i) (q i k) ≤ q j k := h i j k him hj hk hjk hij hik
        omega
      · have hin : i < n := lt_trans him hmn
        have hji : j ≠ i := fun he => hij he.symm
        rw [fwStep_main (n := n) (i := m) (j := j) (k := k) q hj hk hjk hjm hkm,
          fwStep_main (n := n) (i := m) (j := j) (k := i) q hj hin hji hjm hinm,
          fwStep_main (n := n) (i := m) (j := i) (k := k) q hin hk hik hinm hkm]
        have ih1 : min (q j i) (q i k) ≤ q j k := h i j k him hj hk hjk hij hik
        have ih2 : min (q j i) (q i m) ≤ q j m := h i j m him hj hmn hjm hij hinm
        have ih3 : min (q m i) (q i k) ≤ q m k :=
          h i m k him hmn hk (fun he => hkm he.symm) hinm hik
        omega
  · subst him
    rw [fwStep_col, fwStep_row,
      fwStep_main (n := n) (i := i) (j := j) (k := k) q hj hk hjk
        (fun he => hij he.symm) (fun he => hik he.symm)]
    exact le_max_right _ _

theorem fwPass_inv (n : ℕ) (q : ℕ → ℕ → ℕ) : FwInv n n (fwPass n q) := by
  suffices h : ∀ m, m ≤ n →
      FwInv n m ((List.range m).foldl (fun q i => fwStep n i q) q) by
    exact h n le_rfl
  intro m
  induction m with
  | zero =>
    intro _ i j k hi
    exact absurd hi (Nat.not_lt_zero i)
  | succ m ih =>
    intro hle
    rw [List.range_succ, List.foldl_append]
    simp only [List.foldl_cons, List.foldl_nil]
    exact fwStep_inv (Nat.lt_of_succ_le hle) (ih (le_of_lt (Nat.lt_of_succ_le hle)))

theorem fwStep_eq_of_inv {n i : ℕ} {q : ℕ → ℕ → ℕ} (hin : i < n)
    (h : FwInv n n q) : fwStep n i q = q := by
  funext j k
  unfold fwStep
  split
  · rename_i hc
    obtain ⟨hj, hk, hjk, hji, hki⟩ := hc
    exact max_eq_left (h i j k hin hj hk hjk (fun e => hji e.symm) (fun e => hki e.symm))
  · rfl

theorem fwPass_eq_of_inv {n : ℕ} {q : ℕ → ℕ → ℕ} (h : FwInv n n q) :
    fwPass n q = q := by
  suffices hs : ∀ l : List ℕ, (∀ i ∈ l, i < n) →
      l.foldl (fun q i => fwStep n i q) q = q by
    exact hs (List.range n) (fun i hi => List.mem_range.1 hi)
  intro l
  induction l with
  | nil => intro _; rfl
  | cons i is ih =>
    intro hmem
    simp only [List.foldl_cons]
    rw [fwStep_eq_of_inv (hmem i (by simp)) h]
    exact ih (fun x hx => hmem x (List.mem_cons_of_mem _ hx))

theorem fwStep_diag (n i : ℕ) (q : ℕ → ℕ → ℕ) (x : ℕ) :
    fwStep n i q x x = q x x := by
  unfold fwStep
  rw [if_neg]
  rintro ⟨-, -, h, -⟩
  exact h rfl

theorem fwPass_diag (n : ℕ) (q : ℕ → ℕ → ℕ) (x : ℕ) :
    fwPass n q x x = q x x := by
  suffices hs : ∀ (l : List ℕ) (q : ℕ → ℕ → ℕ),
      (l.foldl (fun q i => fwStep n i q) q) x x = q x x by
    exact hs (List.range n) q
  intro l
  induction l with
  | nil => intro q; rfl
  | cons i is ih =>
    intro q
    simp only [List.foldl_cons]
    rw [ih, fwStep_diag]

/-- The cyclic worked example: three candidates with three ballots forming a
Condorcet cycle A beats B beats C beats A. -/
def cycLangs : List String := ["A", "B", "C"]

/-- Ballots realizing the cycle. -/
def cycBallots : List (List String) :=
  [["A", "B", "C"], ["B", "C", "A"], ["C", "A", "B"]]

/-- C7 counterexample: in the produced (post-widening) strength matrix of the
cyclic example, `p[0][1]` and `p[1][0]` are both positive, refuting the claim
that they are never both nonzero. -/
theorem claim_C7_strength_matrix_cex :
    0 < (build_preference_matrices cycLangs cycBallots).2 0 1 ∧
    0 < (build_preference_matrices cycLangs cycBallots).2 1 0 := by decide

/-- C7 (amended): the produced strength matrix has a zero diagonal, and the
mutual-exclusion property (never both `p[i][j] > 0` and `p[j][i] > 0` for
`i ≠ j`) holds of the initial strength matrix, before the beatpath widening
pass; after widening it can fail (see the counterexample). -/
theorem claim_C7_strength_matrix_amended (languages : List String)
    (ballots : List (List String)) :
    (∀ i, (build_preference_matrices languages ballots).2 i i = 0) ∧
    (∀ i j, i ≠ j →
      ¬ (0 < pInitMatrix languages ballots i j ∧
         0 < pInitMatrix languages ballots j i)) := by
  constructor
  · intro i
    show fwPass languages.length (pInitMatrix languages ballots) i i = 0
    rw [fwPass_diag]
    unfold pInitMatrix
    rw [if_neg]
    rintro ⟨-, -, h, -⟩
    exact h rfl
  · rintro i j hij ⟨h1, h2⟩
    unfold pInitMatrix at h1 h2
    by_cases hc1 : i < languages.length ∧ j < languages.length ∧ i ≠ j ∧
        dMatrix languages ballots j i < dMatrix languages ballots i j
    · by_cases hc2 : j < languages.length ∧ i < languages.length ∧ j ≠ i ∧
          dMatrix languages ballots i j < dMatrix languages ballots j i
      · exact absurd hc2.2.2.2 (not_lt.2 (le_of_lt hc1.2.2.2))
      · rw [if_neg hc2] at h2
        exact lt_irrefl 0 h2
    · rw [if_neg hc1] at h1
      exact lt_irrefl 0 h1

/-- Witness for C7 (amended) on the cyclic example. -/
theorem claim_C7_strength_matrix_amended_witness :
    (build_preference_matrices cycLangs cycBallots).2 2 2 = 0 ∧
    ¬ (0 < pInitMatrix cycLangs cycBallots 0 1 ∧
       0 < pInitMatrix cycLangs cycBallots 1 0) :=
  ⟨(claim_C7_strength_matrix_amended cycLangs cycBallots).1 2,
   (claim_C7_strength_matrix_amended cycLangs cycBallots).2 0 1 (by decide)⟩

/-- C8: after the single widening pass (intermediate index outermost), the
strength matrix satisfies the max/min triangle property for every mutually
distinct triple inside the candidate square, and re-running the widening pass
leaves the matrix unchanged (it is at the transitive-closure fixed point). -/
theorem claim_C8_beatpath_fixed_point (languages : List String)
    (ballots : List (List String)) :
    (∀ i j k, i < languages.length → j < languages.length →
      k < languages.length → i ≠ j → j ≠ k → i ≠ k →
      min ((build_preference_matrices languages ballots).2 j i)
          ((build_preference_matrices languages ballots).2 i k)
        ≤ (build_preference_matrices languages ballots).2 j k) ∧
    fwPass languages.length (build_preference_matrices languages ballots).2
      = (build_preference_matrices languages ballots).2 := by
  have hinv : FwInv languages.length languages.length
      (fwPass languages.length (pInitMatrix languages ballots)) :=
    fwPass_inv _ _
  constructor
  · intro i j k hi hj hk hij hjk hik
    exact hinv i j k hi hj hk hjk hij hik
  · exact fwPass_eq_of_inv hinv

/-- Witness for C8 on the cyclic example. -/
theorem claim_C8_beatpath_fixed_point_witness :
    (min ((build_preference_matrices cycLangs cycBallots).2 1 0)
        ((build_preference_matrices cycLangs cycBallots).2 0 2)
      ≤ (build_preference_matrices cycLangs cycBallots).2 1 2) ∧
    fwPass cycLangs.length (build_preference_matrices cycLangs cycBallots).2
      = (build_preference_matrices cycLangs cycBallots).2 :=
  ⟨(claim_C8_beatpath_fixed_point cycLangs cycBallots).1 0 1 2 (by decide)
      (by decide) (by decide) (by decide) (by decide) (by decide),
   (claim_C8_beatpath_fixed_point cycLangs cycBallots).2⟩

/-- Mirrors `SchulzeRecord` from `main.rs`. -/
structure SchulzeRecord where
  position : Nat
  lang : String
  tiobe_rank : Option Nat
  tiobe_share : ℚ
  tiobe_trend : Option ℚ
  pypl_rank : Option Nat
  pypl_share : ℚ
  pypl_trend : Option ℚ
  benchmark_elapsed : ℚ
  schulze_wins : Nat
deriving Repr, DecidableEq

/-- Three-way comparison on `ℕ`, mirroring `usize::cmp`. -/
def ncmp (x y : ℕ) : Ordering :=
  if x < y then .lt else if x = y then .eq else .gt

/-- Index lookup through `tiobe_index` / `pypl_index` followed by
`entries.get`: the last entry carrying the name wins, as hash-map insertion
overwrites. -/
def entryFor (entries : List RankingEntry) (lang : String) : Option RankingEntry :=
  (entries.filter (fun e => decide (e.lang = lang))).getLast?

/-- Lookup in the benchmark score map. -/
def benchFor (bench : List (String × ℚ)) (lang : String) : Option ℚ :=
  ((bench.filter (fun kv => decide (kv.1 = lang))).getLast?).map Prod.snd

/-- `share_for` in `compare_descending`: a missing entry contributes share 0. -/
def shareFor (entries : List RankingEntry) (lang : String) : ℚ :=
  ((entryFor entries lang).map RankingEntry.share).getD 0

/-- Mirrors `compare_descending` from `main.rs`. -/
def compare_descending (entries : List RankingEntry) (a b : String) : Ordering :=
  (qcmp (shareFor entries b) (shareFor entries a)).then (scmp a b)

/-- `f64::partial_cmp` after `unwrap_or(f64::INFINITY)`: a missing value acts
as plus infinity (and infinity compares equal to itself). -/
def qcmpOptAsc : Option ℚ → Option ℚ → Ordering
  | none, none => .eq
  | none, some _ => .gt
  | some _, none => .lt
  | some x, some y => qcmp x y

/-- Mirrors `compare_ascending` from `main.rs`. -/
def compare_ascending (bench : List (String × ℚ)) (a b : String) : Ordering :=
  (qcmpOptAsc (benchFor bench a) (benchFor bench b)).then (scmp a b)

/-- The candidate set of `compute_schulze_records`: languages present in the
TIOBE list, the PYPL list and the benchmark map, deduplicated and sorted
ascending (`languages.sort()`). -/
def schulzeCandidates (tiobe pypl : List RankingEntry)
    (bench : List (String × ℚ)) : List String :=
  sortByCmp scmp
    (((tiobe.map RankingEntry.lang).dedup).filter
      (fun l => pypl.any (fun e => decide (e.lang = l)) &&
        bench.any (fun kv => decide (kv.1 = l))))

/-- The three ballots of `compute_schulze_records`: TIOBE share descending,
PYPL share descending, benchmark figure ascending, ties by name. -/
def schulzeBallots (tiobe pypl : List RankingEntry) (bench : List (String × ℚ))
    (languages : List String) : List (List String) :=
  [sortByCmp (compare_descending tiobe) languages,
   sortByCmp (compare_descending pypl) languages,
   sortByCmp (compare_ascending bench) languages]

/-- Mirrors `combined_score` from `main.rs`: TIOBE share plus PYPL share plus
the reciprocal of the benchmark figure (0 when the figure is missing — an
infinity — or not positive). -/
def combined_score (lang : String) (tiobe pypl : List RankingEntry)
    (bench : List (String × ℚ)) : ℚ :=
  shareFor tiobe lang + shareFor pypl lang +
    (match benchFor bench lang with
     | some v => if 0 < v then 1 / v else 0
     | none => 0)

/-- `index_map[lang]`; candidates are always present, the default 0 is never
reached on them. -/
def idx (languages : List String) (lang : String) : ℕ :=
  (indexOfLang languages lang).getD 0

/-- The final ranking comparator of `compute_schulze_records` (the closure
passed to `ranked.sort_by`), over a fixed strength matrix `p`. -/
def schulzeCmpP (tiobe pypl : List RankingEntry) (bench : List (String × ℚ))
    (languages : List String) (p : ℕ → ℕ → ℕ) (a b : String) : Ordering :=
  match ncmp (p (idx languages a) (idx languages b))
      (p (idx languages b) (idx languages a)) with
  | .gt => .lt
  | .lt => .gt
  | .eq =>
    (qcmp (combined_score b tiobe pypl bench)
      (combined_score a tiobe pypl bench)).then (scmp a b)

/-- The win count of one candidate. -/
def schulzeWins (p : ℕ → ℕ → ℕ) (n : ℕ) (i : ℕ) : ℕ :=
  ((List.range n).filter (fun other => decide (other ≠ i ∧ p other i < p i other))).length

/-- One record of the output: fails (as the code does) when a source lacks
the candidate. -/
def buildSchulzeRecord (tiobe pypl : List RankingEntry)
    (bench : List (String × ℚ)) (languages : List String) (p : ℕ → ℕ → ℕ)
    (position : ℕ) (lang : String) : Except String SchulzeRecord :=
  match entryFor tiobe lang with
  | none => .error ("missing TIOBE data for " ++ lang)
  | some te =>
    match entryFor pypl lang with
    | none => .error ("missing PYPL data for " ++ lang)
    | some pe =>
      match benchFor bench lang with
      | none => .error ("missing benchmark data for " ++ lang)
      | some bv =>
        .ok (SchulzeRecord.mk (position + 1) lang te.rank te.share te.trend
          pe.rank pe.share pe.trend bv
          (schulzeWins p languages.length (idx languages lang)))

/-- The record-building loop with the `?` early return. -/
def exMapM (f : α → Except String β) : List α → Except String (List β)
  | [] => .ok []
  | a :: as =>
    match f a with
    | .error e => .error e
    | .ok b =>
      match exMapM f as with
      | .error e => .error e
      | .ok bs => .ok (b :: bs)

/-- Mirrors `compute_schulze_records` from `main.rs`: intersect the three
sources, build ballots, defeat and strength matrices, sort by the Schulze
comparator, and emit one record per candidate. -/
def compute_schulze_records (tiobe pypl : List RankingEntry)
    (bench : List (String × ℚ)) : Except String (List SchulzeRecord) :=
  if (schulzeCandidates tiobe pypl bench).length < 2 then
    .error "Not enough overlapping languages to compute Schulze ranking"
  else
    exMapM
      (fun pr => buildSchulzeRecord tiobe pypl bench
        (schulzeCandidates tiobe pypl bench)
        ((build_preference_matrices (schulzeCandidates tiobe pypl bench)
          (schulzeBallots tiobe pypl bench
            (schulzeCandidates tiobe pypl bench))).2)
        pr.1 pr.2)
      (sortByCmp
        (schulzeCmpP tiobe pypl bench (schulzeCandidates tiobe pypl bench)
          ((build_preference_matrices (schulzeCandidates tiobe pypl bench)
            (schulzeBallots tiobe pypl bench
              (schulzeCandidates tiobe pypl bench))).2))
        (schulzeCandidates tiobe pypl bench)).enum

def c3tiobe : List RankingEntry :=
  [RankingEntry.mk "A" (some 1) 3 none,
   RankingEntry.mk "B" (some 2) 2 none,
   RankingEntry.mk "C" (some 3) 1 none]

def c3pypl : List RankingEntry :=
  [RankingEntry.mk "A" (some 3) (14/5) none,
   RankingEntry.mk "B" (some 1) 3 none,
   RankingEntry.mk "C" (some 2) (29/10) none]

def c3bench : List (String × ℚ) := [("A", 2), ("B", 100), ("C", 1)]


theorem qcmp_eq_lt {a b : ℚ} : qcmp a b = .lt ↔ a < b := by
  unfold qcmp
  split_ifs with h₁ h₂
  · simp [h₁]
  · simp [h₂, lt_irrefl]
  · simp only [reduceCtorEq, false_iff]
    exact h₁

theorem qcmp_eq_eq {a b : ℚ} : qcmp a b = .eq ↔ a = b := by
  unfold qcmp
  split_ifs with h₁ h₂
  · simp only [reduceCtorEq, false_iff]
    exact ne_of_lt h₁
  · simp [h₂]
  · simp [h₂]

theorem qcmp_eq_gt {a b : ℚ} : qcmp a b = .gt ↔ b < a := by
  unfold qcmp
  split_ifs with h₁ h₂
  · simp only [reduceCtorEq, false_iff]
    exact fun h => lt_asymm h₁ h
  · subst h₂
    simp [lt_irrefl]
  · simp only [true_iff]
    rcases lt_trichotomy a b with h | h | h
    · exact absurd h h₁
    · exact absurd h h₂
    · exact h

theorem ncmp_eq_lt {a b : ℕ} : ncmp a b = .lt ↔ a < b := by
  unfold ncmp
  split_ifs with h₁ h₂
  · simp [h₁]
  · simp only [reduceCtorEq, false_iff]
    omega
  · simp only [reduceCtorEq, false_iff]
    exact h₁

theorem ncmp_eq_eq {a b : ℕ} : ncmp a b = .eq ↔ a = b := by
  unfold ncmp
  split_ifs with h₁ h₂
  · simp only [reduceCtorEq, false_iff]
    omega
  · simp [h₂]
  · simp only [reduceCtorEq, false_iff]
    omega

theorem ncmp_eq_gt {a b : ℕ} : ncmp a b = .gt ↔ b < a := by
  unfold ncmp
  split_ifs with h₁ h₂
  · simp only [reduceCtorEq, false_iff]
    omega
  · simp only [reduceCtorEq, false_iff]
    omega
  · simp only [true_iff]
    omega

/-- The tie-break score exactly as the spec's words state it (for comparison
with the code's `combined_score`): sum of each source's share plus the
performance figure on its native scale. -/
def combined_score_specText (lang : String) (tiobe pypl : List RankingEntry)
    (bench : List (String × ℚ)) : ℚ :=
  shareFor tiobe lang + shareFor pypl lang + (benchFor bench lang).getD 0

/-- C3 counterexample: on a Condorcet-cyclic input every pair of candidates is
strength-tied; language B has the larger spec-text combined score (its shares
plus its benchmark figure of 100 seconds), yet the code ranks A first, because
the code adds the reciprocal 1/perf, not the performance figure itself. -/
theorem claim_C3_comparator_cex :
    (build_preference_matrices (schulzeCandidates c3tiobe c3pypl c3bench)
        (schulzeBallots c3tiobe c3pypl c3bench
          (schulzeCandidates c3tiobe c3pypl c3bench))).2
        (idx (schulzeCandidates c3tiobe c3pypl c3bench) "A")
        (idx (schulzeCandidates c3tiobe c3pypl c3bench) "B")
      = (build_preference_matrices (schulzeCandidates c3tiobe c3pypl c3bench)
          (schulzeBallots c3tiobe c3pypl c3bench
            (schulzeCandidates c3tiobe c3pypl c3bench))).2
          (idx (schulzeCandidates c3tiobe c3pypl c3bench) "B")
          (idx (schulzeCandidates c3tiobe c3pypl c3bench) "A") ∧
    combined_score_specText "A" c3tiobe c3pypl c3bench
      < combined_score_specText "B" c3tiobe c3pypl c3bench ∧
    (compute_schulze_records c3tiobe c3pypl c3bench).toOption.map
      (List.map SchulzeRecord.lang) = some ["A", "B", "C"] := by decide

/-- C3 (amended): in the final ranking comparator, a precedes b whenever
p[a][b] > p[b][a]; on a tie the winner is the higher combined score, where the
performance contribution is the reciprocal of the benchmark figure (0 when the
figure is missing or not positive), and any remaining tie goes to the
canonical name ascending. -/
theorem claim_C3_comparator_amended (tiobe pypl : List RankingEntry)
    (bench : List (String × ℚ)) (languages : List String) (p : ℕ → ℕ → ℕ)
    (a b : String) :
    schulzeCmpP tiobe pypl bench languages p a b = .lt ↔
      (p (idx languages b) (idx languages a)
          < p (idx languages a) (idx languages b) ∨
       (p (idx languages a) (idx languages b)
          = p (idx languages b) (idx languages a) ∧
        (combined_score b tiobe pypl bench < combined_score a tiobe pypl bench ∨
         (combined_score a tiobe pypl bench = combined_score b tiobe pypl bench ∧
          a < b)))) := by
  unfold schulzeCmpP
  rcases lt_trichotomy (p (idx languages a) (idx languages b))
      (p (idx languages b) (idx languages a)) with h | h | h
  · rw [ncmp_eq_lt.2 h]
    apply iff_of_false (by simp)
    rintro (hlt | ⟨heq, -⟩)
    · exact lt_asymm h hlt
    · exact absurd heq (ne_of_lt h)
  · rw [ncmp_eq_eq.2 h]
    rcases lt_trichotomy (combined_score b tiobe pypl bench)
        (combined_score a tiobe pypl bench) with hs | hs | hs
    · rw [qcmp_eq_lt.2 hs]
      exact iff_of_true rfl (Or.inr ⟨h, Or.inl hs⟩)
    · rw [qcmp_eq_eq.2 hs]
      show scmp a b = .lt ↔ _
      rw [scmp_eq_lt]
      constructor
      · intro hab
        exact Or.inr ⟨h, Or.inr ⟨hs.symm, hab⟩⟩
      · rintro (hlt | ⟨-, (hlt | ⟨-, hab⟩)⟩)
        · rw [h] at hlt
          exact absurd hlt (lt_irrefl _)
        · rw [hs] at hlt
          exact absurd hlt (lt_irrefl _)
        · exact hab
    · rw [qcmp_eq_gt.2 hs]
      apply iff_of_false (by simp [Ordering.then])
      rintro (hlt | ⟨-, (hlt | ⟨heq, -⟩)⟩)
      · rw [h] at hlt
        exact absurd hlt (lt_irrefl _)
      · exact lt_asymm hs hlt
      · exact absurd heq (ne_of_lt hs)
  · rw [ncmp_eq_gt.2 h]
    exact iff_of_true rfl (Or.inl h)

theorem exMapM_ok {α β : Type} {f : α → Except String β} :
    ∀ {l : List α} {r : List β}, exMapM f l = .ok r →
      List.Forall₂ (fun a b => f a = .ok b) l r := by
  intro l
  induction l with
  | nil =>
    intro r h
    unfold exMapM at h
    cases h
    exact List.Forall₂.nil
  | cons a as ih =>
    intro r h
    unfold exMapM at h
    cases hf : f a with
    | error e =>
      rw [hf] at h
      cases h
    | ok b =>
      rw [hf] at h
      cases hm : exMapM f as with
      | error e =>
        rw [hm] at h
        cases h
      | ok bs =>
        rw [hm] at h
        cases h
        exact List.Forall₂.cons hf (ih hm)

theorem forall2_mem_right {α β : Type} {R : α → β → Prop} :
    ∀ {l : List α} {r : List β}, List.Forall₂ R l r →
      ∀ b ∈ r, ∃ a ∈ l, R a b := by
  intro l r h
  induction h with
  | nil => intro b hb; simp at hb
  | cons hR _ ih =>
    intro b hb
    rcases List.mem_cons.1 hb with hb | hb
    · subst hb
      exact ⟨_, List.mem_cons_self _ _, hR⟩
    · obtain ⟨a, ha, haR⟩ := ih b hb
      exact ⟨a, List.mem_cons_of_mem _ ha, haR⟩

theorem forall2_mem_left {α β : Type} {R : α → β → Prop} :
    ∀ {l : List α} {r : List β}, List.Forall₂ R l r →
      ∀ a ∈ l, ∃ b ∈ r, R a b := by
  intro l r h
  induction h with
  | nil => intro a ha; simp at ha
  | cons hR _ ih =>
    intro a ha
    rcases List.mem_cons.1 ha with ha | ha
    · subst ha
      exact ⟨_, List.mem_cons_self _ _, hR⟩
    · obtain ⟨b, hb, hbR⟩ := ih a ha
      exact ⟨b, List.mem_cons_of_mem _ hb, hbR⟩

theorem buildSchulzeRecord_lang {tiobe pypl : List RankingEntry}
    {bench : List (String × ℚ)} {languages : List String} {p : ℕ → ℕ → ℕ}
    {position : ℕ} {lang : String} {rec : SchulzeRecord}
    (h : buildSchulzeRecord tiobe pypl bench languages p position lang = .ok rec) :
    rec.lang = lang := by
  unfold buildSchulzeRecord at h
  cases h₁ : entryFor tiobe lang with
  | none => rw [h₁] at h; cases h
  | some te =>
    rw [h₁] at h
    cases h₂ : entryFor pypl lang with
    | none => rw [h₂] at h; cases h
    | some pe =>
      rw [h₂] at h
      cases h₃ : benchFor bench lang with
      | none => rw [h₃] at h; cases h
      | some bv =>
        rw [h₃] at h
        cases h
        rfl

theorem mem_schulzeCandidates (tiobe pypl : List RankingEntry)
    (bench : List (String × ℚ)) (lang : String) :
    lang ∈ schulzeCandidates tiobe pypl bench ↔
      (tiobe.any (fun e => decide (e.lang = lang)) = true ∧
       pypl.any (fun e => decide (e.lang = lang)) = true ∧
       bench.any (fun kv => decide (kv.1 = lang)) = true) := by
  unfold schulzeCandidates
  rw [mem_sortByCmp, List.mem_filter, List.mem_dedup, List.mem_map]
  simp only [Bool.and_eq_true, List.any_eq_true, decide_eq_true_eq]

/-- Concrete input for C2: language C is present in TIOBE and PYPL but not
in the benchmark map. -/
def c2tiobe : List RankingEntry :=
  [RankingEntry.mk "A" (some 1) 3 none,
   RankingEntry.mk "B" (some 2) 2 none,
   RankingEntry.mk "C" (some 3) 1 none]

def c2pypl : List RankingEntry :=
  [RankingEntry.mk "A" (some 1) 3 none,
   RankingEntry.mk "B" (some 2) 2 none,
   RankingEntry.mk "C" (some 3) 1 none]

def c2bench : List (String × ℚ) := [("A", 1), ("B", 2)]

/-- C2 counterexample: language C appears in two of the three signal sets
(TIOBE and PYPL) yet is excluded from the ranking entirely instead of being
kept with a share-0 default for the missing benchmark source. -/
theorem claim_C2_candidates_cex :
    (compute_schulze_records c2tiobe c2pypl c2bench).toOption.map
      (List.map SchulzeRecord.lang) = some ["A", "B"] ∧
    c2tiobe.any (fun e => decide (e.lang = "C")) = true ∧
    c2pypl.any (fun e => decide (e.lang = "C")) = true ∧
    c2bench.any (fun kv => decide (kv.1 = "C")) = false := by decide

/-- C2 (amended): when `compute_schulze_records` succeeds, it emits at least
two records, and a language is ranked exactly when it is present in all three
signal sets (TIOBE, PYPL and the benchmark map); a language missing from any
one set is excluded rather than given neutral defaults. -/
theorem claim_C2_candidates_amended (tiobe pypl : List RankingEntry)
    (bench : List (String × ℚ)) (recs : List SchulzeRecord)
    (h : compute_schulze_records tiobe pypl bench = .ok recs) :
    2 ≤ recs.length ∧
    (∀ lang, (∃ r ∈ recs, r.lang = lang) ↔
      (tiobe.any (fun e => decide (e.lang = lang)) = true ∧
       pypl.any (fun e => decide (e.lang = lang)) = true ∧
       bench.any (fun kv => decide (kv.1 = lang)) = true)) := by
  unfold compute_schulze_records at h
  by_cases hlen : (schulzeCandidates tiobe pypl bench).length < 2
  · rw [if_pos hlen] at h
    cases h
  · rw [if_neg hlen] at h
    have hf2 := exMapM_ok h
    have hlencand : recs.length = (schulzeCandidates tiobe pypl bench).length := by
      have h1 := hf2.length_eq
      rw [List.enum_length] at h1
      rw [← h1]
      exact (sortByCmp_perm _ _).length_eq
    constructor
    · rw [hlencand]
      omega
    · intro lang
      constructor
      · rintro ⟨r, hr, rfl⟩
        obtain ⟨pr, hpr, hfr⟩ := forall2_mem_right hf2 r hr
        have hlang := buildSchulzeRecord_lang hfr
        rw [hlang]
        have hsnd : pr.2 ∈ sortByCmp
            (schulzeCmpP tiobe pypl bench (schulzeCandidates tiobe pypl bench)
              ((build_preference_matrices (schulzeCandidates tiobe pypl bench)
                (schulzeBallots tiobe pypl bench
                  (schulzeCandidates tiobe pypl bench))).2))
            (schulzeCandidates tiobe pypl bench) := by
          have hm := List.mem_map_of_mem Prod.snd hpr
          rw [List.enum_map_snd] at hm
          exact hm
        exact (mem_schulzeCandidates tiobe pypl bench pr.2).1
          ((mem_sortByCmp _ _ _).1 hsnd)
      · intro hcond
        have hmem : lang ∈ schulzeCandidates tiobe pypl bench :=
          (mem_schulzeCandidates tiobe pypl bench lang).2 hcond
        have hmem2 : lang ∈ sortByCmp
            (schulzeCmpP tiobe pypl bench (schulzeCandidates tiobe pypl bench)
              ((build_preference_matrices (schulzeCandidates tiobe pypl bench)
                (schulzeBallots tiobe pypl bench
                  (schulzeCandidates tiobe pypl bench))).2))
            (schulzeCandidates tiobe pypl bench) :=
          (mem_sortByCmp _ _ _).2 hmem
        have hmem3 : lang ∈ (sortByCmp
            (schulzeCmpP tiobe pypl bench (schulzeCandidates tiobe pypl bench)
              ((build_preference_matrices (schulzeCandidates tiobe pypl bench)
                (schulzeBallots tiobe pypl bench
                  (schulzeCandidates tiobe pypl bench))).2))
            (schulzeCandidates tiobe pypl bench)).enum.map Prod.snd := by
          rw [List.enum_map_snd]
          exact hmem2
        obtain ⟨pr, hpr, hsnd⟩ := List.mem_map.1 hmem3
        obtain ⟨r, hr, hfr⟩ := forall2_mem_left hf2 pr hpr
        exact ⟨r, hr, (buildSchulzeRecord_lang hfr).trans hsnd⟩

/-- Witness for C2 (amended) at the concrete input: the run succeeds with two
records and the membership characterization holds for A. -/
theorem claim_C2_candidates_amended_witness :
    2 ≤ ((compute_schulze_records c2tiobe c2pypl c2bench).toOption.getD []).length ∧
    ((∃ r ∈ (compute_schulze_records c2tiobe c2pypl c2bench).toOption.getD [],
        r.lang = "A") ↔
      (c2tiobe.any (fun e => decide (e.lang = "A")) = true ∧
       c2pypl.any (fun e => decide (e.lang = "A")) = true ∧
       c2bench.any (fun kv => decide (kv.1 = "A")) = true)) := by
  have h : compute_schulze_records c2tiobe c2pypl c2bench
      = .ok ((compute_schulze_records c2tiobe c2pypl c2bench).toOption.getD []) := by
    cases hc : compute_schulze_records c2tiobe c2pypl c2bench with
    | error e =>
      have hs : (compute_schulze_records c2tiobe c2pypl c2bench).toOption.isSome
          = true := by decide
      rw [hc] at hs
      simp [Except.toOption] at hs
    | ok v =>
      simp [Except.toOption]
  have h2 := claim_C2_candidates_amended c2tiobe c2pypl c2bench _ h
  exact ⟨h2.1, h2.2 "A"⟩

/-- One parsed row of the benchmark timing table. The CSV/byte layer is the
model boundary: `status = none` stands for an unparseable status field, and
`elapsed = none` for an unparseable or non-finite elapsed time (the code
filters non-finite values right at the parse with `is_finite`). -/
structure BenchRow where
  lang : String
  name : String
  status : Option Int
  elapsed : Option ℚ
deriving Repr, DecidableEq

/-- `or_insert(INFINITY)` followed by the conditional overwrite: keep the
minimum elapsed time per (language, task) key. -/
def updateMin (m : List ((String × String) × ℚ)) (k : String × String) (e : ℚ) :
    List ((String × String) × ℚ) :=
  match m with
  | [] => [(k, e)]
  | (k₁, v) :: rest =>
    if k₁ = k then (k₁, min v e) :: rest else (k₁, v) :: updateMin rest k e

/-- The row-filtering and best-time loop of `compute_benchmark_stats_sync`:
skip rows with unparseable or negative status, empty fields, or an elapsed
time that fails the finite-and-positive guard; key by (lower-cased language,
task name). -/
def bestStep (m : List ((String × String) × ℚ)) (row : BenchRow) :
    List ((String × String) × ℚ) :=
  match row.status with
  | none => m
  | some s =>
    if s < 0 then m
    else if trimChars row.lang = "" ∨ trimChars row.name = "" then m
    else
      match row.elapsed with
      | some e =>
        if 0 < e then
          updateMin m (lowerString (trimChars row.lang), trimChars row.name) e
        else m
      | none => m

def bestPerProblem (rows : List BenchRow) : List ((String × String) × ℚ) :=
  rows.foldl bestStep []

/-- Mirrors `capitalize_word` from `main.rs`. -/
def capitalize_word (input : String) : String :=
  match input.data with
  | [] => ""
  | c :: cs => String.mk (c.toUpper :: cs.map Char.toLower)

/-- The static `benchmark_aliases` table of `main.rs` (identical to the one
in `sources/benchmarks.rs`). -/
def benchmark_aliases : List (String × String) :=
  [("chapel", "Chapel"),
   ("clang", "C/C++"),
   ("csharpaot", "C#"),
   ("csharpcore", "C#"),
   ("dartexe", "Dart"),
   ("dartjit", "Dart"),
   ("erlang", "Erlang"),
   ("fpascal", "Free Pascal"),
   ("fsharpcore", "F#"),
   ("gcc", "C/C++"),
   ("ghc", "Haskell"),
   ("gnat", "Ada"),
   ("go", "Go"),
   ("gpp", "C/C++"),
   ("graalvm", "Graal"),
   ("icx", "C/C++"),
   ("ifc", "Fortran"),
   ("ifx", "Fortran"),
   ("java", "Java"),
   ("javaxint", "Java"),
   ("julia", "Julia"),
   ("lua", "Lua"),
   ("micropython", "Python"),
   ("mri", "Ruby"),
   ("node", "JavaScript"),
   ("ocaml", "OCaml"),
   ("openj9", "Java"),
   ("perl", "Perl"),
   ("pharo", "Smalltalk"),
   ("php", "PHP"),
   ("python3", "Python"),
   ("racket", "Racket"),
   ("ruby", "Ruby"),
   ("rust", "Rust"),
   ("sbcl", "Lisp"),
   ("swift", "Swift"),
   ("toit", "Toit"),
   ("vw", "")]

/-- Mirrors `canonical_benchmark_lang`: the argument is already lower-cased
(the extra `to_lowercase` in the `main.rs` copy is a no-op on it). -/
def canonical_benchmark_lang (langLower : String) : Option String :=
  match lookupMap benchmark_aliases langLower with
  | some a => if a = "" then none else some a
  | none => some (capitalize_word langLower)

/-- `per_lang.entry(canonical).or_default().push(elapsed)`. -/
def pushVal (m : List (String × List ℚ)) (k : String) (e : ℚ) :
    List (String × List ℚ) :=
  match m with
  | [] => [(k, [e])]
  | (k₁, v) :: rest =>
    if k₁ = k then (k₁, v ++ [e]) :: rest else (k₁, v) :: pushVal rest k e

/-- The per-language grouping loop: drop non-positive leftovers (none exist
in the `ℚ` model, the guard is still embedded), canonicalize, drop the empty
canonical name. -/
def perStep (m : List (String × List ℚ)) (kv : (String × String) × ℚ) :
    List (String × List ℚ) :=
  if 0 < kv.2 then
    match canonical_benchmark_lang kv.1.1 with
    | some c => if c = "" then m else pushVal m c kv.2
    | none => m
  else m

def perLang (best : List ((String × String) × ℚ)) : List (String × List ℚ) :=
  best.foldl perStep []

/-- The median as computed by the two `select_nth_unstable_by` calls: the
element at sorted position len/2 for odd length, the midpoint of sorted
positions len/2 - 1 and len/2 for even length. -/
def medianOf (values : List ℚ) : ℚ :=
  if values.length % 2 = 1 then (sortByCmp qcmp values).getD (values.length / 2) 0
  else
    ((sortByCmp qcmp values).getD (values.length / 2 - 1) 0 +
      (sortByCmp qcmp values).getD (values.length / 2) 0) / 2

/-- The per-language median map before the C/C++ copy (every median of
rationals is finite, so the `is_finite` insert guard always passes). -/
def medStep (m : List (String × ℚ)) (kv : String × List ℚ) : List (String × ℚ) :=
  if kv.2.length = 0 then m else mapInsert m kv.1 (medianOf kv.2)

def benchMediansRaw (rows : List BenchRow) : List (String × ℚ) :=
  (perLang (bestPerProblem rows)).foldl medStep []

/-- Mirrors `compute_benchmark_stats_sync` (from the parsed-row level): the
median map, then the C/C++ copy block. -/
def compute_benchmark_stats_sync (rows : List BenchRow) : List (String × ℚ) :=
  match lookupMap (benchMediansRaw rows) "C/C++" with
  | some v => mapInsert (mapInsert (benchMediansRaw rows) "C" v) "C++" v
  | none => benchMediansRaw rows

/-- The spec worked scenario: one task, Go and Rust at 1.0 s, Python at 4.0 s. -/
def c1rows : List BenchRow :=
  [BenchRow.mk "go" "T" (some 0) (some 1),
   BenchRow.mk "rust" "T" (some 0) (some 1),
   BenchRow.mk "python3" "T" (some 0) (some 4)]


/-- C1 counterexample: the spec scenario (one task, Go 1.0 s, Rust 1.0 s,
Python 4.0 s) gives Python the score 4.0 — the median of its elapsed times —
not the claimed geometric-mean speed ratio 0.25. -/
theorem claim_C1_performance_score_cex :
    lookupMap (compute_benchmark_stats_sync c1rows) "Python" ≠ some (1 / 4) ∧
    lookupMap (compute_benchmark_stats_sync c1rows) "Python" = some 4 := by decide

theorem lookup_medStep_fold_isSome :
    ∀ (pl : List (String × List ℚ)) (m : List (String × ℚ)) (lang : String),
      (lookupMap (pl.foldl medStep m) lang).isSome = true →
      (lookupMap m lang).isSome = true ∨ ∃ kv ∈ pl, kv.1 = lang := by
  intro pl
  induction pl with
  | nil =>
    intro m lang h
    exact Or.inl h
  | cons kv pl ih =>
    intro m lang h
    simp only [List.foldl_cons] at h
    rcases ih _ lang h with hm | hex
    · unfold medStep at hm
      by_cases hz : kv.2.length = 0
      · rw [if_pos hz] at hm
        exact Or.inl hm
      · rw [if_neg hz, lookupMap_mapInsert] at hm
        by_cases hk : kv.1 = lang
        · exact Or.inr ⟨kv, List.mem_cons_self _ _, hk⟩
        · rw [if_neg hk] at hm
          exact Or.inl hm
    · obtain ⟨kv₁, h1, h2⟩ := hex
      exact Or.inr ⟨kv₁, List.mem_cons_of_mem _ h1, h2⟩

/-- C1 (amended): each language's performance score is the median of its
per-task best elapsed times (seconds, smaller is better); a language with no
usable value is absent from the map except for the C/C++ copy onto C and C++;
in the spec scenario the scores are Go = 1.0, Rust = 1.0, Python = 4.0. -/
theorem claim_C1_performance_score_amended :
    (lookupMap (compute_benchmark_stats_sync c1rows) "Go" = some 1 ∧
     lookupMap (compute_benchmark_stats_sync c1rows) "Rust" = some 1 ∧
     lookupMap (compute_benchmark_stats_sync c1rows) "Python" = some 4 ∧
     lookupMap (compute_benchmark_stats_sync c1rows) "Java" = none) ∧
    (∀ (rows : List BenchRow) (lang : String) (v : ℚ),
      lookupMap (compute_benchmark_stats_sync rows) lang = some v →
      (∃ kv ∈ perLang (bestPerProblem rows), kv.1 = lang) ∨
        lang = "C" ∨ lang = "C++") := by
  refine ⟨by decide, ?_⟩
  intro rows lang v h
  unfold compute_benchmark_stats_sync at h
  cases hcc : lookupMap (benchMediansRaw rows) "C/C++" with
  | none =>
    rw [hcc] at h
    have hs : (lookupMap (benchMediansRaw rows) lang).isSome = true := by
      rw [h]; rfl
    rcases lookup_medStep_fold_isSome _ _ _ hs with hnil | hex
    · simp [lookupMap] at hnil
    · exact Or.inl hex
  | some v0 =>
    rw [hcc] at h
    rw [lookupMap_mapInsert] at h
    by_cases h1 : "C++" = lang
    · exact Or.inr (Or.inr h1.symm)
    · rw [if_neg h1, lookupMap_mapInsert] at h
      by_cases h2 : "C" = lang
      · exact Or.inr (Or.inl h2.symm)
      · rw [if_neg h2] at h
        have hs : (lookupMap (benchMediansRaw rows) lang).isSome = true := by
          rw [h]; rfl
        rcases lookup_medStep_fold_isSome _ _ _ hs with hnil | hex
        · simp [lookupMap] at hnil
        · exact Or.inl hex

/-- Witness for C1 (amended): a ranked language really has usable data. -/
theorem claim_C1_performance_score_amended_witness :
    (∃ kv ∈ perLang (bestPerProblem c1rows), kv.1 = "Go") ∨
      "Go" = "C" ∨ "Go" = "C++" :=
  claim_C1_performance_score_amended.2 c1rows "Go" 1 (by decide)

/-- Input with both a literal language "c" and the runtime "gcc" (aliased to
the combined C/C++ identity) on the same task. -/
def c9rows : List BenchRow :=
  [BenchRow.mk "c" "T" (some 0) (some 7),
   BenchRow.mk "gcc" "T" (some 0) (some 3)]

/-- C9 counterexample: the pre-copy map has C = 7 and C/C++ = 3, yet the
final map has C = 3 — the copy overwrites the already-present C score instead
of leaving it unchanged. -/
theorem claim_C9_ccpp_copy_cex :
    lookupMap (benchMediansRaw c9rows) "C" = some 7 ∧
    lookupMap (benchMediansRaw c9rows) "C/C++" = some 3 ∧
    lookupMap (compute_benchmark_stats_sync c9rows) "C" = some 3 := by decide

/-- C9 (amended): when a C/C++ score is present it is copied onto the keys C
and C++ unconditionally, overwriting any score already recorded there; all
other keys are unchanged, and without a C/C++ score the map is unchanged. -/
theorem claim_C9_ccpp_copy_amended (rows : List BenchRow) :
    (∀ v, lookupMap (benchMediansRaw rows) "C/C++" = some v →
      (lookupMap (compute_benchmark_stats_sync rows) "C" = some v ∧
       lookupMap (compute_benchmark_stats_sync rows) "C++" = some v ∧
       ∀ lang, lang ≠ "C" → lang ≠ "C++" →
         lookupMap (compute_benchmark_stats_sync rows) lang
           = lookupMap (benchMediansRaw rows) lang)) ∧
    (lookupMap (benchMediansRaw rows) "C/C++" = none →
      compute_benchmark_stats_sync rows = benchMediansRaw rows) := by
  constructor
  · intro v hv
    unfold compute_benchmark_stats_sync
    rw [hv]
    refine ⟨?_, ?_, ?_⟩
    · rw [lookupMap_mapInsert, if_neg (by decide : ¬("C++" : String) = "C"),
        lookupMap_mapInsert, if_pos rfl]
    · rw [lookupMap_mapInsert, if_pos rfl]
    · intro lang hc hcpp
      rw [lookupMap_mapInsert, if_neg (fun he => hcpp he.symm),
        lookupMap_mapInsert, if_neg (fun he => hc he.symm)]
  · intro hv
    unfold compute_benchmark_stats_sync
    rw [hv]

/-- Witness for C9 (amended) at the c9rows input. -/
theorem claim_C9_ccpp_copy_amended_witness :
    lookupMap (compute_benchmark_stats_sync c9rows) "C" = some 3 ∧
    lookupMap (compute_benchmark_stats_sync c9rows) "C++" = some 3 ∧
    lookupMap (compute_benchmark_stats_sync c9rows) "Lisp"
      = lookupMap (benchMediansRaw c9rows) "Lisp" :=
  ⟨((claim_C9_ccpp_copy_amended c9rows).1 3 (by decide)).1,
   ((claim_C9_ccpp_copy_amended c9rows).1 3 (by decide)).2.1,
   ((claim_C9_ccpp_copy_amended c9rows).1 3 (by decide)).2.2 "Lisp"
     (by decide) (by decide)⟩

theorem foldl_preserve_mem {α β : Type} {P : α → Prop} {f : α → β → α} :
    ∀ (l : List β), (∀ a b, b ∈ l → P a → P (f a b)) →
      ∀ a, P a → P (l.foldl f a) := by
  intro l
  induction l with
  | nil =>
    intro _ a ha
    exact ha
  | cons b bs ih =>
    intro hf a ha
    exact ih (fun a₁ b₁ hb₁ => hf a₁ b₁ (List.mem_cons_of_mem _ hb₁)) _
      (hf a b (List.mem_cons_self _ _) ha)

theorem updateMin_pos {m : List ((String × String) × ℚ)} {k : String × String}
    {e : ℚ} (hm : ∀ kv ∈ m, 0 < kv.2) (he : 0 < e) :
    ∀ kv ∈ updateMin m k e, 0 < kv.2 := by
  induction m with
  | nil =>
    intro kv hkv
    simp only [updateMin, List.mem_singleton] at hkv
    subst hkv
    exact he
  | cons kv₁ rest ih =>
    obtain ⟨k₁, v₁⟩ := kv₁
    intro kv hkv
    unfold updateMin at hkv
    split at hkv
    · rcases List.mem_cons.1 hkv with hkv | hkv
      · subst hkv
        exact lt_min (hm (k₁, v₁) (List.mem_cons_self _ _)) he
      · exact hm kv (List.mem_cons_of_mem _ hkv)
    · rcases List.mem_cons.1 hkv with hkv | hkv
      · subst hkv
        exact hm (k₁, v₁) (List.mem_cons_self _ _)
      · exact ih (fun kv₂ hkv₂ => hm kv₂ (List.mem_cons_of_mem _ hkv₂)) kv hkv

theorem bestStep_pos {m : List ((String × String) × ℚ)} {row : BenchRow}
    (hm : ∀ kv ∈ m, 0 < kv.2) : ∀ kv ∈ bestStep m row, 0 < kv.2 := by
  cases hst : row.status with
  | none =>
    simp only [bestStep, hst]
    exact hm
  | some s =>
    simp only [bestStep, hst]
    by_cases h1 : s < 0
    · rw [if_pos h1]
      exact hm
    · rw [if_neg h1]
      by_cases h2 : trimChars row.lang = "" ∨ trimChars row.name = ""
      · rw [if_pos h2]
        exact hm
      · rw [if_neg h2]
        cases hel : row.elapsed with
        | none =>
          simp only [hel]
          exact hm
        | some e =>
          simp only [hel]
          by_cases h3 : 0 < e
          · rw [if_pos h3]
            exact updateMin_pos hm h3
          · rw [if_neg h3]
            exact hm

theorem bestPerProblem_pos (rows : List BenchRow) :
    ∀ kv ∈ bestPerProblem rows, 0 < kv.2 := by
  unfold bestPerProblem
  refine foldl_preserve_mem (P := fun (m : List ((String × String) × ℚ)) => ∀ kv ∈ m, 0 < kv.2) rows ?_ [] ?_
  · intro m row _ hm
    exact bestStep_pos hm
  · intro kv hkv
    simp at hkv

theorem pushVal_pos {m : List (String × List ℚ)} {k : String} {e : ℚ}
    (hm : ∀ kv ∈ m, ∀ x ∈ kv.2, 0 < x) (he : 0 < e) :
    ∀ kv ∈ pushVal m k e, ∀ x ∈ kv.2, 0 < x := by
  induction m with
  | nil =>
    intro kv hkv x hx
    simp only [pushVal, List.mem_singleton] at hkv
    subst hkv
    simp only [List.mem_singleton] at hx
    subst hx
    exact he
  | cons kv₁ rest ih =>
    obtain ⟨k₁, v₁⟩ := kv₁
    intro kv hkv x hx
    unfold pushVal at hkv
    split at hkv
    · rcases List.mem_cons.1 hkv with hkv | hkv
      · subst hkv
        rcases List.mem_append.1 hx with hx | hx
        · exact hm (k₁, v₁) (List.mem_cons_self _ _) x hx
        · simp only [List.mem_singleton] at hx
          subst hx
          exact he
      · exact hm kv (List.mem_cons_of_mem _ hkv) x hx
    · rcases List.mem_cons.1 hkv with hkv | hkv
      · subst hkv
        exact hm (k₁, v₁) (List.mem_cons_self _ _) x hx
      · exact ih (fun kv₂ hkv₂ => hm kv₂ (List.mem_cons_of_mem _ hkv₂)) kv hkv x hx

theorem perLang_pos (best : List ((String × String) × ℚ)) :
    ∀ kv ∈ perLang best, ∀ x ∈ kv.2, 0 < x := by
  unfold perLang
  refine foldl_preserve_mem
    (P := fun (m : List (String × List ℚ)) => ∀ kv ∈ m, ∀ x ∈ kv.2, 0 < x)
    best (fun m b _ hm => ?_) [] (fun kv hkv => by simp at hkv)
  show ∀ kv ∈ perStep m b, ∀ x ∈ kv.2, 0 < x
  replace hm : ∀ kv ∈ m, ∀ x ∈ kv.2, 0 < x := hm
  unfold perStep
  by_cases hb : 0 < b.2
  · rw [if_pos hb]
    cases hc : canonical_benchmark_lang b.1.1 with
    | none =>
      simp only [hc]
      exact hm
    | some c =>
      simp only [hc]
      by_cases hce : c = ""
      · rw [if_pos hce]
        exact hm
      · rw [if_neg hce]
        exact pushVal_pos hm hb
  · rw [if_neg hb]
    exact hm

theorem getD_mem_of_lt {α : Type} : ∀ {l : List α} {i : ℕ} (d : α),
    i < l.length → l.getD i d ∈ l := by
  intro l
  induction l with
  | nil =>
    intro i d h
    simp at h
  | cons a as ih =>
    intro i d h
    cases i with
    | zero => simp
    | succ j =>
      have hj : j < as.length := by simpa using h
      exact List.mem_cons_of_mem _ (ih d hj)

theorem medianOf_pos {values : List ℚ} (hne : values ≠ [])
    (hpos : ∀ x ∈ values, 0 < x) : 0 < medianOf values := by
  have hlen : 0 < values.length := List.length_pos.2 hne
  have hperm := sortByCmp_perm qcmp values
  have hlen2 : (sortByCmp qcmp values).length = values.length := hperm.length_eq
  have hmem : ∀ i, i < values.length → 0 < (sortByCmp qcmp values).getD i 0 := by
    intro i hi
    exact hpos _ (hperm.mem_iff.1 (getD_mem_of_lt 0 (by rw [hlen2]; exact hi)))
  unfold medianOf
  split
  · exact hmem _ (Nat.div_lt_self hlen one_lt_two)
  · have h1 : values.length / 2 < values.length := Nat.div_lt_self hlen one_lt_two
    have h0 : values.length / 2 - 1 < values.length :=
      lt_of_le_of_lt (Nat.sub_le _ _) h1
    have hp0 := hmem _ h0
    have hp1 := hmem _ h1
    have hsum : 0 < (sortByCmp qcmp values).getD (values.length / 2 - 1) 0 +
        (sortByCmp qcmp values).getD (values.length / 2) 0 := add_pos hp0 hp1
    exact div_pos hsum (by norm_num)

theorem mapInsert_pos {m : List (String × ℚ)} {k : String} {v : ℚ}
    (hm : ∀ kv ∈ m, 0 < kv.2) (hv : 0 < v) :
    ∀ kv ∈ mapInsert m k v, 0 < kv.2 := by
  induction m with
  | nil =>
    intro kv hkv
    simp only [mapInsert, List.mem_singleton] at hkv
    subst hkv
    exact hv
  | cons kv₁ rest ih =>
    obtain ⟨k₁, v₁⟩ := kv₁
    intro kv hkv
    unfold mapInsert at hkv
    split at hkv
    · rcases List.mem_cons.1 hkv with hkv | hkv
      · subst hkv
        exact hv
      · exact hm kv (List.mem_cons_of_mem _ hkv)
    · rcases List.mem_cons.1 hkv with hkv | hkv
      · subst hkv
        exact hm (k₁, v₁) (List.mem_cons_self _ _)
      · exact ih (fun kv₂ hkv₂ => hm kv₂ (List.mem_cons_of_mem _ hkv₂)) kv hkv

theorem benchMediansRaw_pos (rows : List BenchRow) :
    ∀ kv ∈ benchMediansRaw rows, 0 < kv.2 := by
  unfold benchMediansRaw
  refine foldl_preserve_mem
    (P := fun (m : List (String × ℚ)) => ∀ kv ∈ m, 0 < kv.2)
    (perLang (bestPerProblem rows))
    (fun m b hb hm => ?_) [] (fun kv hkv => by simp at hkv)
  unfold medStep
  split
  · exact hm
  · rename_i hz
    have hne : b.2 ≠ [] := by
      intro he
      exact hz (by rw [he]; rfl)
    exact mapInsert_pos hm
      (medianOf_pos hne (perLang_pos (bestPerProblem rows) b hb))

/-- C10: every value in the benchmark score map is strictly positive (and, in
the `ℚ` model, finite by construction): rows with unparseable, non-finite or
non-positive elapsed times never reach aggregation, and medians of positive
values are positive. -/
theorem claim_C10_positive_scores (rows : List BenchRow) :
    ∀ lang v, lookupMap (compute_benchmark_stats_sync rows) lang = some v →
      0 < v := by
  intro lang v h
  unfold compute_benchmark_stats_sync at h
  cases hcc : lookupMap (benchMediansRaw rows) "C/C++" with
  | none =>
    rw [hcc] at h
    exact benchMediansRaw_pos rows _ (lookupMap_mem h)
  | some v0 =>
    rw [hcc] at h
    have hv0 : 0 < v0 := benchMediansRaw_pos rows _ (lookupMap_mem hcc)
    rw [lookupMap_mapInsert] at h
    by_cases h1 : ("C++" : String) = lang
    · rw [if_pos h1] at h
      cases h
      exact hv0
    · rw [if_neg h1, lookupMap_mapInsert] at h
      by_cases h2 : ("C" : String) = lang
      · rw [if_pos h2] at h
        cases h
        exact hv0
      · rw [if_neg h2] at h
        exact benchMediansRaw_pos rows _ (lookupMap_mem h)

/-- Witness for C10 at the spec scenario: Python's recorded score 4 is
positive. -/
theorem claim_C10_positive_scores_witness : (0 : ℚ) < 4 :=
  claim_C10_positive_scores c1rows "Python" 4 (by decide)

end LangRank
